import Mathlib

/-!
Verification of the Bloom filter core of this repository
(`src/BloomFilter.py`): the plain `BloomFilter` (bitset) and the
`CountingBloomFilter` (counter vector).

The embedding is faithful to the Python source:

* items are represented by their UTF-8 byte encodings (`List Nat`,
  entries `< 256`), exactly the bytes `data.encode()` feeds to the
  digest functions;
* the five digest algorithms of the module-level `hash_functions`
  list (`sha256`, `sha1`, `md5`, `sha384`, `sha512` from `hashlib`)
  are implemented in full over byte lists, and a digest value is the
  number `int(hexdigest, 16)`;
* `bytearray` reads and writes are modelled with their Python error
  behaviour: reading out of range raises `IndexError`, writing a
  value outside `range(0, 256)` raises `ValueError`.  Mutating
  operations return the final storage together with a `Bool` that is
  `true` iff the Python call returns normally (`false` iff it
  raises); because the Python code mutates in place, the storage
  returned on a raise is the partially mutated one, exactly as the
  exception would leave the object;
* the sizing arithmetic of `__init__` (`math.log`, `math.ceil` on
  floats) is idealised over the real numbers.
-/

set_option maxRecDepth 20000

/-! ### Machine-word arithmetic over `Nat` -/

/-- Truncate to a 32-bit word (`x % 2^32`). -/
def w32 (x : Nat) : Nat := x % 4294967296

/-- Truncate to a 64-bit word (`x % 2^64`). -/
def w64 (x : Nat) : Nat := x % 18446744073709551616

/-- 32-bit rotate right. -/
def rotr32 (x n : Nat) : Nat := w32 ((x >>> n) ||| (x <<< (32 - n)))

/-- 32-bit rotate left. -/
def rotl32 (x n : Nat) : Nat := w32 ((x <<< n) ||| (x >>> (32 - n)))

/-- 64-bit rotate right. -/
def rotr64 (x n : Nat) : Nat := w64 ((x >>> n) ||| (x <<< (64 - n)))

/-- Big-endian byte list to number: exactly `int(hexdigest, 16)` applied to
the digest's byte string. -/
def beToNat (l : List Nat) : Nat := l.foldl (fun a b => a * 256 + b) 0

/-- `w` big-endian bytes of `n` (most significant first). -/
def natToBE : Nat → Nat → List Nat
  | 0, _ => []
  | w + 1, n => natToBE w (n / 256) ++ [n % 256]

/-- `w` little-endian bytes of `n` (least significant first). -/
def natToLE : Nat → Nat → List Nat
  | 0, _ => []
  | w + 1, n => n % 256 :: natToLE w (n / 256)

/-- Split a byte list into big-endian 32-bit words. -/
def toWords32BE : List Nat → List Nat
  | a :: b :: c :: d :: rest => beToNat [a, b, c, d] :: toWords32BE rest
  | _ => []

/-- Split a byte list into little-endian 32-bit words (MD5). -/
def toWords32LE : List Nat → List Nat
  | a :: b :: c :: d :: rest => beToNat [d, c, b, a] :: toWords32LE rest
  | _ => []

/-- Split a byte list into big-endian 64-bit words (SHA-384/512). -/
def toWords64BE : List Nat → List Nat
  | a :: b :: c :: d :: e :: f :: g :: h :: rest =>
      beToNat [a, b, c, d, e, f, g, h] :: toWords64BE rest
  | _ => []

/-- Chop a list into chunks of `bs` elements; `fuel` bounds the recursion
(callers pass the list length, which is always enough). -/
def blocksAux (bs : Nat) : Nat → List Nat → List (List Nat)
  | 0, _ => []
  | _, [] => []
  | fuel + 1, l => l.take bs :: blocksAux bs fuel (l.drop bs)

/-- Merkle–Damgård padding with a big-endian length field of `lenW` bytes:
append `0x80`, zeros, and the bit length, to a multiple of `blockLen`. -/
def padBE (blockLen lenW : Nat) (msg : List Nat) : List Nat :=
  msg ++ 128 :: List.replicate ((blockLen - (msg.length + 1 + lenW) % blockLen) % blockLen) 0
      ++ natToBE lenW (8 * msg.length)

/-- MD5 padding: like `padBE 64 8` but the length field is little-endian. -/
def padLE (msg : List Nat) : List Nat :=
  msg ++ 128 :: List.replicate ((64 - (msg.length + 9) % 64) % 64) 0
      ++ natToLE 8 (8 * msg.length)

/-- Assemble digest words (most significant first) into the digest number. -/
def wordsToNat (base : Nat) (l : List Nat) : Nat := l.foldl (fun a w => a * base + w) 0

/-! ### SHA-256 -/

/-- The 64 SHA-256 round constants. -/
def sha256K : List Nat :=
  [1116352408, 1899447441, 3049323471, 3921009573,
   961987163, 1508970993, 2453635748, 2870763221,
   3624381080, 310598401, 607225278, 1426881987,
   1925078388, 2162078206, 2614888103, 3248222580,
   3835390401, 4022224774, 264347078, 604807628,
   770255983, 1249150122, 1555081692, 1996064986,
   2554220882, 2821834349, 2952996808, 3210313671,
   3336571891, 3584528711, 113926993, 338241895,
   666307205, 773529912, 1294757372, 1396182291,
   1695183700, 1986661051, 2177026350, 2456956037,
   2730485921, 2820302411, 3259730800, 3345764771,
   3516065817, 3600352804, 4094571909, 275423344,
   430227734, 506948616, 659060556, 883997877,
   958139571, 1322822218, 1537002063, 1747873779,
   1955562222, 2024104815, 2227730452, 2361852424,
   2428436474, 2756734187, 3204031479, 3329325298]

/-- The SHA-256 initial hash state. -/
def sha256IV : List Nat :=
  [1779033703, 3144134277, 1013904242, 2773480762,
   1359893119, 2600822924, 528734635, 1541459225]

/-- Message-schedule extension. `wrev` holds the schedule so far, most
recent word first, so `w[i-2]` is `wrev[1]`, `w[i-7]` is `wrev[6]`,
`w[i-15]` is `wrev[14]` and `w[i-16]` is `wrev[15]`. -/
def sha256ExtAux : Nat → List Nat → List Nat
  | 0, wrev => wrev
  | k + 1, wrev =>
    let g := fun j => wrev.getD j 0
    let s0 := rotr32 (g 14) 7 ^^^ rotr32 (g 14) 18 ^^^ (g 14 >>> 3)
    let s1 := rotr32 (g 1) 17 ^^^ rotr32 (g 1) 19 ^^^ (g 1 >>> 10)
    sha256ExtAux k (w32 (g 15 + s0 + g 6 + s1) :: wrev)

/-- Extend the 16 block words to the 64 schedule words. -/
def sha256Schedule (ws : List Nat) : List Nat := (sha256ExtAux 48 ws.reverse).reverse

/-- One SHA-256 compression round. -/
def sha256Round (s : Nat × Nat × Nat × Nat × Nat × Nat × Nat × Nat) (kw : Nat × Nat) :
    Nat × Nat × Nat × Nat × Nat × Nat × Nat × Nat :=
  match s, kw with
  | (a, b, c, d, e, f, g, h), (k, w) =>
    let s1 := rotr32 e 6 ^^^ rotr32 e 11 ^^^ rotr32 e 25
    let ch := (e &&& f) ^^^ ((e ^^^ 4294967295) &&& g)
    let t1 := w32 (h + s1 + ch + k + w)
    let s0 := rotr32 a 2 ^^^ rotr32 a 13 ^^^ rotr32 a 22
    let mj := (a &&& b) ^^^ (a &&& c) ^^^ (b &&& c)
    let t2 := w32 (s0 + mj)
    (w32 (t1 + t2), a, b, c, w32 (d + t1), e, f, g)

/-- Compress one 64-byte block into the hash state. -/
def sha256Compress (hs : List Nat) (block : List Nat) : List Nat :=
  let w := sha256Schedule (toWords32BE block)
  let g := fun j => hs.getD j 0
  let r := (sha256K.zip w).foldl sha256Round (g 0, g 1, g 2, g 3, g 4, g 5, g 6, g 7)
  match r with
  | (a, b, c, d, e, f, gg, hh) =>
    [w32 (g 0 + a), w32 (g 1 + b), w32 (g 2 + c), w32 (g 3 + d),
     w32 (g 4 + e), w32 (g 5 + f), w32 (g 6 + gg), w32 (g 7 + hh)]

/-- `int(sha256(msg).hexdigest(), 16)`. -/
def sha256Int (msg : List Nat) : Nat :=
  let p := padBE 64 8 msg
  wordsToNat 4294967296 ((blocksAux 64 p.length p).foldl sha256Compress sha256IV)

/-! ### SHA-1 -/

/-- The SHA-1 initial hash state. -/
def sha1IV : List Nat := [1732584193, 4023233417, 2562383102, 271733878, 3285377520]

/-- The SHA-1 round function, selected by the round index. -/
def sha1F (i b c d : Nat) : Nat :=
  if i < 20 then (b &&& c) ||| ((b ^^^ 4294967295) &&& d)
  else if i < 40 then b ^^^ c ^^^ d
  else if i < 60 then (b &&& c) ||| (b &&& d) ||| (c &&& d)
  else b ^^^ c ^^^ d

/-- The SHA-1 round constant, selected by the round index. -/
def sha1KOf (i : Nat) : Nat :=
  if i < 20 then 1518500249 else if i < 40 then 1859775393
  else if i < 60 then 2400959708 else 3395469782

/-- Schedule extension: `w[i] = rotl1 (w[i-3] xor w[i-8] xor w[i-14] xor w[i-16])`,
with the schedule held most recent first. -/
def sha1ExtAux : Nat → List Nat → List Nat
  | 0, wrev => wrev
  | k + 1, wrev =>
    let g := fun j => wrev.getD j 0
    sha1ExtAux k (rotl32 (g 2 ^^^ g 7 ^^^ g 13 ^^^ g 15) 1 :: wrev)

/-- Extend the 16 block words to the 80 schedule words. -/
def sha1Schedule (ws : List Nat) : List Nat := (sha1ExtAux 64 ws.reverse).reverse

/-- One SHA-1 compression round. -/
def sha1Round (s : Nat × Nat × Nat × Nat × Nat) (iw : Nat × Nat) :
    Nat × Nat × Nat × Nat × Nat :=
  match s, iw with
  | (a, b, c, d, e), (i, w) =>
    let t := w32 (rotl32 a 5 + sha1F i b c d + e + sha1KOf i + w)
    (t, a, rotl32 b 30, c, d)

/-- Compress one 64-byte block into the hash state. -/
def sha1Compress (hs : List Nat) (block : List Nat) : List Nat :=
  let w := sha1Schedule (toWords32BE block)
  let g := fun j => hs.getD j 0
  let r := ((List.range 80).zip w).foldl sha1Round (g 0, g 1, g 2, g 3, g 4)
  match r with
  | (a, b, c, d, e) =>
    [w32 (g 0 + a), w32 (g 1 + b), w32 (g 2 + c), w32 (g 3 + d), w32 (g 4 + e)]

/-- `int(sha1(msg).hexdigest(), 16)`. -/
def sha1Int (msg : List Nat) : Nat :=
  let p := padBE 64 8 msg
  wordsToNat 4294967296 ((blocksAux 64 p.length p).foldl sha1Compress sha1IV)

/-! ### MD5 -/

/-- The 64 MD5 additive constants (`floor(abs(sin(i+1)) * 2^32)`). -/
def md5K : List Nat :=
  [3614090360, 3905402710, 606105819, 3250441966,
   4118548399, 1200080426, 2821735955, 4249261313,
   1770035416, 2336552879, 4294925233, 2304563134,
   1804603682, 4254626195, 2792965006, 1236535329,
   4129170786, 3225465664, 643717713, 3921069994,
   3593408605, 38016083, 3634488961, 3889429448,
   568446438, 3275163606, 4107603335, 1163531501,
   2850285829, 4243563512, 1735328473, 2368359562,
   4294588738, 2272392833, 1839030562, 4259657740,
   2763975236, 1272893353, 4139469664, 3200236656,
   681279174, 3936430074, 3572445317, 76029189,
   3654602809, 3873151461, 530742520, 3299628645,
   4096336452, 1126891415, 2878612391, 4237533241,
   1700485571, 2399980690, 4293915773, 2240044497,
   1873313359, 4264355552, 2734768916, 1309151649,
   4149444226, 3174756917, 718787259, 3951481745]

/-- The 64 MD5 per-round left-rotation amounts. -/
def md5S : List Nat :=
  [7, 12, 17, 22, 7, 12, 17, 22, 7, 12, 17, 22, 7, 12, 17, 22,
   5, 9, 14, 20, 5, 9, 14, 20, 5, 9, 14, 20, 5, 9, 14, 20,
   4, 11, 16, 23, 4, 11, 16, 23, 4, 11, 16, 23, 4, 11, 16, 23,
   6, 10, 15, 21, 6, 10, 15, 21, 6, 10, 15, 21, 6, 10, 15, 21]

/-- The MD5 initial state. -/
def md5IV : Nat × Nat × Nat × Nat := (1732584193, 4023233417, 2562383102, 271733878)

/-- One MD5 round over a block's 16 little-endian words `m`. -/
def md5Round (m : List Nat) (s : Nat × Nat × Nat × Nat) (i : Nat) : Nat × Nat × Nat × Nat :=
  match s with
  | (a, b, c, d) =>
    let fg :=
      if i < 16 then ((b &&& c) ||| ((b ^^^ 4294967295) &&& d), i)
      else if i < 32 then ((d &&& b) ||| ((d ^^^ 4294967295) &&& c), (5 * i + 1) % 16)
      else if i < 48 then (b ^^^ c ^^^ d, (3 * i + 5) % 16)
      else (c ^^^ (b ||| (d ^^^ 4294967295)), (7 * i) % 16)
    let t := w32 (fg.1 + a + md5K.getD i 0 + m.getD fg.2 0)
    (d, w32 (b + rotl32 t (md5S.getD i 0)), b, c)

/-- Compress one 64-byte block into the MD5 state. -/
def md5Compress (s : Nat × Nat × Nat × Nat) (block : List Nat) : Nat × Nat × Nat × Nat :=
  let m := toWords32LE block
  let r := (List.range 64).foldl (md5Round m) s
  match s, r with
  | (a0, b0, c0, d0), (a, b, c, d) =>
    (w32 (a0 + a), w32 (b0 + b), w32 (c0 + c), w32 (d0 + d))

/-- `int(md5(msg).hexdigest(), 16)`: the hexdigest serialises the four state
words little-endian, and `int(_, 16)` reads those bytes big-endian. -/
def md5Int (msg : List Nat) : Nat :=
  let p := padLE msg
  let r := (blocksAux 64 p.length p).foldl md5Compress md5IV
  match r with
  | (a, b, c, d) => beToNat (natToLE 4 a ++ natToLE 4 b ++ natToLE 4 c ++ natToLE 4 d)

/-! ### SHA-512 and SHA-384 -/

/-- The 80 SHA-512 round constants. -/
def sha512K : List Nat :=
  [4794697086780616226, 8158064640168781261, 13096744586834688815,
   16840607885511220156, 4131703408338449720, 6480981068601479193,
   10538285296894168987, 12329834152419229976, 15566598209576043074,
   1334009975649890238, 2608012711638119052, 6128411473006802146,
   8268148722764581231, 9286055187155687089, 11230858885718282805,
   13951009754708518548, 16472876342353939154, 17275323862435702243,
   1135362057144423861, 2597628984639134821, 3308224258029322869,
   5365058923640841347, 6679025012923562964, 8573033837759648693,
   10970295158949994411, 12119686244451234320, 12683024718118986047,
   13788192230050041572, 14330467153632333762, 15395433587784984357,
   489312712824947311, 1452737877330783856, 2861767655752347644,
   3322285676063803686, 5560940570517711597, 5996557281743188959,
   7280758554555802590, 8532644243296465576, 9350256976987008742,
   10552545826968843579, 11727347734174303076, 12113106623233404929,
   14000437183269869457, 14369950271660146224, 15101387698204529176,
   15463397548674623760, 17586052441742319658, 1182934255886127544,
   1847814050463011016, 2177327727835720531, 2830643537854262169,
   3796741975233480872, 4115178125766777443, 5681478168544905931,
   6601373596472566643, 7507060721942968483, 8399075790359081724,
   8693463985226723168, 9568029438360202098, 10144078919501101548,
   10430055236837252648, 11840083180663258601, 13761210420658862357,
   14299343276471374635, 14566680578165727644, 15097957966210449927,
   16922976911328602910, 17689382322260857208, 500013540394364858,
   748580250866718886, 1242879168328830382, 1977374033974150939,
   2944078676154940804, 3659926193048069267, 4368137639120453308,
   4836135668995329356, 5532061633213252278, 6448918945643986474,
   6902733635092675308, 7801388544844847127]

/-- The SHA-512 initial hash state. -/
def sha512IV : List Nat :=
  [7640891576956012808, 13503953896175478587,
   4354685564936845355, 11912009170470909681,
   5840696475078001361, 11170449401992604703,
   2270897969802886507, 6620516959819538809]

/-- The SHA-384 initial hash state. -/
def sha384IV : List Nat :=
  [14680500436340154072, 7105036623409894663,
   10473403895298186519, 1526699215303891257,
   7436329637833083697, 10282925794625328401,
   15784041429090275239, 5167115440072839076]

/-- SHA-512 message-schedule extension, schedule held most recent first. -/
def sha512ExtAux : Nat → List Nat → List Nat
  | 0, wrev => wrev
  | k + 1, wrev =>
    let g := fun j => wrev.getD j 0
    let s0 := rotr64 (g 14) 1 ^^^ rotr64 (g 14) 8 ^^^ (g 14 >>> 7)
    let s1 := rotr64 (g 1) 19 ^^^ rotr64 (g 1) 61 ^^^ (g 1 >>> 6)
    sha512ExtAux k (w64 (g 15 + s0 + g 6 + s1) :: wrev)

/-- Extend the 16 block words to the 80 schedule words. -/
def sha512Schedule (ws : List Nat) : List Nat := (sha512ExtAux 64 ws.reverse).reverse

/-- One SHA-512 compression round. -/
def sha512Round (s : Nat × Nat × Nat × Nat × Nat × Nat × Nat × Nat) (kw : Nat × Nat) :
    Nat × Nat × Nat × Nat × Nat × Nat × Nat × Nat :=
  match s, kw with
  | (a, b, c, d, e, f, g, h), (k, w) =>
    let s1 := rotr64 e 14 ^^^ rotr64 e 18 ^^^ rotr64 e 41
    let ch := (e &&& f) ^^^ ((e ^^^ 18446744073709551615) &&& g)
    let t1 := w64 (h + s1 + ch + k + w)
    let s0 := rotr64 a 28 ^^^ rotr64 a 34 ^^^ rotr64 a 39
    let mj := (a &&& b) ^^^ (a &&& c) ^^^ (b &&& c)
    let t2 := w64 (s0 + mj)
    (w64 (t1 + t2), a, b, c, w64 (d + t1), e, f, g)

/-- Compress one 128-byte block into the hash state. -/
def sha512Compress (hs : List Nat) (block : List Nat) : List Nat :=
  let w := sha512Schedule (toWords64BE block)
  let g := fun j => hs.getD j 0
  let r := (sha512K.zip w).foldl sha512Round (g 0, g 1, g 2, g 3, g 4, g 5, g 6, g 7)
  match r with
  | (a, b, c, d, e, f, gg, hh) =>
    [w64 (g 0 + a), w64 (g 1 + b), w64 (g 2 + c), w64 (g 3 + d),
     w64 (g 4 + e), w64 (g 5 + f), w64 (g 6 + gg), w64 (g 7 + hh)]

/-- The SHA-512 hash state after absorbing `msg`, from initial state `iv`. -/
def sha512Core (iv : List Nat) (msg : List Nat) : List Nat :=
  let p := padBE 128 16 msg
  (blocksAux 128 p.length p).foldl sha512Compress iv

/-- `int(sha512(msg).hexdigest(), 16)`. -/
def sha512Int (msg : List Nat) : Nat :=
  wordsToNat 18446744073709551616 (sha512Core sha512IV msg)

/-- `int(sha384(msg).hexdigest(), 16)`: the SHA-512 core with the SHA-384
initial state, truncated to the first six words. -/
def sha384Int (msg : List Nat) : Nat :=
  wordsToNat 18446744073709551616 ((sha512Core sha384IV msg).take 6)

/-! ### The module-level `hash_functions` list and `BloomFilter._hash` -/

/-- The module-level list `hash_functions = [sha256, sha1, md5, sha384, sha512]`,
each function taken as message bytes to `int(hexdigest, 16)`. -/
def hash_functions : List (List Nat → Nat) :=
  [sha256Int, sha1Int, md5Int, sha384Int, sha512Int]

/-- `hash_functions[seed]` applied to `data` (the digest as an unsigned
integer).  Seeds are always `< hash_functions.length` in the program. -/
def hashDigest (seed : Nat) (data : List Nat) : Nat :=
  (hash_functions.getD seed (fun _ => 0)) data

/-- `BloomFilter._hash`: `int(hash_functions[seed](data).hexdigest(), 16) % size`. -/
def bfHash (size : Nat) (data : List Nat) (seed : Nat) : Nat :=
  hashDigest seed data % size

/-- The slot indices an operation on `item` touches, in seed order:
`[_hash(item, 0), ..., _hash(item, nhash - 1)]`. -/
def indicesOf (size nhash : Nat) (item : List Nat) : List Nat :=
  (List.range nhash).map (fun i => bfHash size item i)

/-! ### `BloomFilter` (bitset variant)

Python `bytearray` access appears in the loops as explicit checks:
reading checks the index (`IndexError` on failure), writing checks that
the stored value is in `range(0, 256)` (`ValueError` on failure).  A
failed check is the raise. -/

/-- The mutable state of a `BloomFilter` instance: the sizing fields and
the `bytearray` contents. -/
structure BloomFilter where
  size : Nat
  nhash : Nat
  filter_data : List Nat
  deriving DecidableEq

/-- The loop body of `BloomFilter.add` over the remaining slot indices:
`self.filter_data[index // 8] |= 1 << (index % 8)` for each index.  The
`Bool` is `true` iff no step raises; on a raise the partially mutated
storage is returned. -/
def setBitLoop : List Nat → List Nat → List Nat × Bool
  | fd, [] => (fd, true)
  | fd, index :: rest =>
    if index / 8 < fd.length then
      if (fd.getD (index / 8) 0) ||| (1 <<< (index % 8)) < 256 then
        setBitLoop (fd.set (index / 8) ((fd.getD (index / 8) 0) ||| (1 <<< (index % 8)))) rest
      else (fd, false)
    else (fd, false)

/-- `BloomFilter.add`: set the bit for every seed's slot index. -/
def BloomFilter.add (bf : BloomFilter) (item : List Nat) : BloomFilter × Bool :=
  let r := setBitLoop bf.filter_data (indicesOf bf.size bf.nhash item)
  (BloomFilter.mk bf.size bf.nhash r.1, r.2)

/-- The loop of `BloomFilter.query`: return `False` on the first slot
whose bit is clear, `True` if every bit is set; `none` models an
`IndexError` raise. -/
def bitQueryLoop (fd : List Nat) : List Nat → Option Bool
  | [] => some true
  | index :: rest =>
    if index / 8 < fd.length then
      if (fd.getD (index / 8) 0) &&& (1 <<< (index % 8)) = 0 then some false
      else bitQueryLoop fd rest
    else none

/-- `BloomFilter.query`. -/
def BloomFilter.query (bf : BloomFilter) (item : List Nat) : Option Bool :=
  bitQueryLoop bf.filter_data (indicesOf bf.size bf.nhash item)

/-- Run a sequence of `add` calls left to right; a raise stops the
sequence (the exception propagates), keeping the state at the raise. -/
def BloomFilter.addAll (bf : BloomFilter) : List (List Nat) → BloomFilter × Bool
  | [] => (bf, true)
  | x :: xs =>
    let r := bf.add x
    if r.2 then r.1.addAll xs else (r.1, false)

/-- Bit `i % 8` of byte `i / 8`: the bit that slot `i` occupies in the
packed bit array. -/
def getBit (fd : List Nat) (i : Nat) : Bool :=
  Nat.testBit (fd.getD (i / 8) 0) (i % 8)

/-! ### `CountingBloomFilter` -/

/-- The mutable state of a `CountingBloomFilter` instance; `filter_data`
is a `bytearray` of `size` counters. -/
structure CountingBloomFilter where
  size : Nat
  nhash : Nat
  filter_data : List Nat
  deriving DecidableEq

/-- The loop body of `CountingBloomFilter.add`:
`self.filter_data[index] += 1` for each index; incrementing a counter
holding 255 raises `ValueError` (the new value 256 is not a byte), and
the earlier increments persist. -/
def incrLoop : List Nat → List Nat → List Nat × Bool
  | fd, [] => (fd, true)
  | fd, index :: rest =>
    if index < fd.length then
      if fd.getD index 0 + 1 < 256 then incrLoop (fd.set index (fd.getD index 0 + 1)) rest
      else (fd, false)
    else (fd, false)

/-- `CountingBloomFilter.add`. -/
def CountingBloomFilter.add (cbf : CountingBloomFilter) (item : List Nat) :
    CountingBloomFilter × Bool :=
  let r := incrLoop cbf.filter_data (indicesOf cbf.size cbf.nhash item)
  (CountingBloomFilter.mk cbf.size cbf.nhash r.1, r.2)

/-- The loop of `CountingBloomFilter.query`: `False` on the first zero
counter, `True` if all are nonzero. -/
def cntQueryLoop (fd : List Nat) : List Nat → Option Bool
  | [] => some true
  | index :: rest =>
    if index < fd.length then
      if fd.getD index 0 = 0 then some false else cntQueryLoop fd rest
    else none

/-- `CountingBloomFilter.query`. -/
def CountingBloomFilter.query (cbf : CountingBloomFilter) (item : List Nat) : Option Bool :=
  cntQueryLoop cbf.filter_data (indicesOf cbf.size cbf.nhash item)

/-- The first pass of `CountingBloomFilter.delete`: read each seed's
counter, aborting with the plain `return` on the first zero.  `none` is
an `IndexError` raise, `some none` the benign early `return`, and
`some (some l)` means all counters were positive and `l` is
`indices_to_decrease` (the indices in seed order). -/
def deleteCheck (fd : List Nat) : List Nat → Option (Option (List Nat))
  | [] => some (some [])
  | index :: rest =>
    if index < fd.length then
      if fd.getD index 0 = 0 then some none
      else
        match deleteCheck fd rest with
        | none => none
        | some none => some none
        | some (some l) => some (some (index :: l))
    else none

/-- The second pass of `CountingBloomFilter.delete`:
`self.filter_data[index] -= 1` for each collected index; decrementing a
zero counter raises `ValueError` (the new value `-1` is not a byte) and
the earlier decrements persist. -/
def decrLoop : List Nat → List Nat → List Nat × Bool
  | fd, [] => (fd, true)
  | fd, index :: rest =>
    if index < fd.length then
      if fd.getD index 0 = 0 then (fd, false)
      else
        if fd.getD index 0 - 1 < 256 then decrLoop (fd.set index (fd.getD index 0 - 1)) rest
        else (fd, false)
    else (fd, false)

/-- `CountingBloomFilter.delete`: the two-pass check-then-commit
protocol.  The `Bool` is `true` iff the call returns normally (either
the benign no-op `return` or a completed second pass). -/
def CountingBloomFilter.delete (cbf : CountingBloomFilter) (item : List Nat) :
    CountingBloomFilter × Bool :=
  match deleteCheck cbf.filter_data (indicesOf cbf.size cbf.nhash item) with
  | none => (cbf, false)
  | some none => (cbf, true)
  | some (some idxs) =>
    let r := decrLoop cbf.filter_data idxs
    (CountingBloomFilter.mk cbf.size cbf.nhash r.1, r.2)

/-- Run a sequence of counting `add` calls left to right; a raise stops
the sequence, keeping the state at the raise. -/
def CountingBloomFilter.addAll (cbf : CountingBloomFilter) :
    List (List Nat) → CountingBloomFilter × Bool
  | [] => (cbf, true)
  | x :: xs =>
    let r := cbf.add x
    if r.2 then r.1.addAll xs else (r.1, false)

/-! ### Construction (`__init__`), idealised over the reals -/

/-- `self.size = ceil(-(expected_nr_items * log(max_fpr) / (log(2) ** 2)))`. -/
noncomputable def bloomSize (expected_nr_items : Nat) (max_fpr : ℝ) : ℤ :=
  ⌈-((expected_nr_items : ℝ) * Real.log max_fpr / (Real.log 2) ^ 2)⌉

/-- `optimal_hashes = ceil(self.size / expected_nr_items * log(2))`
(`/` is Python float division), then
`self.nhash = max(1, min(optimal_hashes, len(hash_functions)))`. -/
noncomputable def bloomNhash (expected_nr_items : Nat) (max_fpr : ℝ) : ℤ :=
  max 1 (min ⌈(((bloomSize expected_nr_items max_fpr : ℤ) : ℝ) / (expected_nr_items : ℝ)
      * Real.log 2)⌉ (hash_functions.length : ℤ))

/-- `BloomFilter.__init__`: the bit array holds `(size + 7) // 8` zero
bytes. -/
noncomputable def mkBloomFilter (expected_nr_items : Nat) (max_fpr : ℝ) : BloomFilter :=
  BloomFilter.mk (bloomSize expected_nr_items max_fpr).toNat
    (bloomNhash expected_nr_items max_fpr).toNat
    (List.replicate (((bloomSize expected_nr_items max_fpr).toNat + 7) / 8) 0)

/-- `CountingBloomFilter.__init__`: same sizing, but the storage is
replaced by `size` zero counters. -/
noncomputable def mkCountingBloomFilter (expected_nr_items : Nat) (max_fpr : ℝ) :
    CountingBloomFilter :=
  CountingBloomFilter.mk (bloomSize expected_nr_items max_fpr).toNat
    (bloomNhash expected_nr_items max_fpr).toNat
    (List.replicate (bloomSize expected_nr_items max_fpr).toNat 0)

/-! ### Well-formedness of filter states

Any state produced by the constructor and the operations satisfies
these: the sizing fields are positive, the storage has the right
length, and every stored value is a byte. -/

/-- Well-formed bitset filter state. -/
def wfB (bf : BloomFilter) : Prop :=
  0 < bf.size ∧ bf.filter_data.length = (bf.size + 7) / 8 ∧ ∀ b ∈ bf.filter_data, b < 256

/-- Well-formed counting filter state. -/
def wfC (cbf : CountingBloomFilter) : Prop :=
  0 < cbf.size ∧ cbf.filter_data.length = cbf.size ∧ ∀ b ∈ cbf.filter_data, b < 256

instance (bf : BloomFilter) : Decidable (wfB bf) := by
  unfold wfB; infer_instance

instance (cbf : CountingBloomFilter) : Decidable (wfC cbf) := by
  unfold wfC; infer_instance

/-! ### List access lemmas -/

theorem get?_eq_some_getD : ∀ (l : List Nat) (i : Nat), i < l.length →
    l.get? i = some (l.getD i 0)
  | _ :: _, 0, _ => rfl
  | _ :: l, i + 1, h => get?_eq_some_getD l i (by simpa using h)

theorem get?_eq_none_of_le : ∀ (l : List Nat) (i : Nat), l.length ≤ i → l.get? i = none
  | [], _, _ => rfl
  | _ :: l, i + 1, h => get?_eq_none_of_le l i (by simpa using h)

theorem mem_of_get?_eq_some : ∀ {l : List Nat} {i v : Nat}, l.get? i = some v → v ∈ l
  | _ :: _, 0, _, h => by simp at h; simp [h]
  | _ :: l, i + 1, v, h => List.mem_cons_of_mem _ (mem_of_get?_eq_some (l := l) h)

theorem getD_set_self : ∀ (l : List Nat) (i v : Nat), i < l.length →
    (l.set i v).getD i 0 = v
  | _ :: _, 0, _, _ => rfl
  | _ :: l, i + 1, v, h => getD_set_self l i v (by simpa using h)

theorem getD_set_ne : ∀ (l : List Nat) (i v j : Nat), i ≠ j →
    (l.set i v).getD j 0 = l.getD j 0
  | [], _, _, _, _ => rfl
  | _ :: _, 0, _, 0, h => absurd rfl h
  | _ :: _, 0, _, _ + 1, _ => rfl
  | _ :: _, _ + 1, _, 0, _ => rfl
  | _ :: l, i + 1, v, j + 1, h => getD_set_ne l i v j (fun e => h (by omega))

theorem set_getD_self : ∀ (l : List Nat) (i : Nat), l.set i (l.getD i 0) = l
  | [], _ => rfl
  | _ :: _, 0 => rfl
  | a :: l, i + 1 => by simpa [List.set] using set_getD_self l i

theorem getD_eq_zero_of_le : ∀ (l : List Nat) (i : Nat), l.length ≤ i → l.getD i 0 = 0
  | [], _, _ => rfl
  | _ :: l, i + 1, h => getD_eq_zero_of_le l i (by simpa using h)

theorem sum_set_add : ∀ (l : List Nat) (i v : Nat), i < l.length →
    (l.set i v).sum + l.getD i 0 = l.sum + v
  | a :: l, 0, v, _ => by simp [List.sum_cons]; omega
  | a :: l, i + 1, v, h => by
      have ih := sum_set_add l i v (by simpa using h)
      simp only [List.set, List.sum_cons, List.getD_cons_succ]
      omega

theorem count_eq_zero_of_not_mem {l : List Nat} {i : Nat} (h : i ∉ l) : l.count i = 0 :=
  List.count_eq_zero.mpr h

/-! ### Bit lemmas -/

theorem testBit_or_shift (a k j : Nat) :
    (a ||| (1 <<< k)).testBit j = (a.testBit j || decide (j = k)) := by
  rw [Nat.one_shiftLeft, Nat.testBit_or]
  rcases eq_or_ne j k with h | h
  · subst h; simp [Nat.testBit_two_pow_self]
  · simp [Nat.testBit_two_pow_of_ne (Ne.symm h), h]

theorem and_shift_eq_zero_iff (a k : Nat) :
    a &&& (1 <<< k) = 0 ↔ a.testBit k = false := by
  rw [Nat.one_shiftLeft]
  constructor
  · intro h
    have := Nat.testBit_and a (2 ^ k) k
    rw [h, Nat.zero_testBit, Nat.testBit_two_pow_self, Bool.and_true] at this
    exact this.symm
  · intro h
    apply Nat.eq_of_testBit_eq
    intro i
    rw [Nat.testBit_and, Nat.zero_testBit]
    rcases eq_or_ne i k with e | e
    · subst e; simp [h]
    · simp [Nat.testBit_two_pow_of_ne (Ne.symm e)]

theorem or_shift_eq_self {a k : Nat} (h : a.testBit k = true) : a ||| (1 <<< k) = a := by
  apply Nat.eq_of_testBit_eq
  intro i
  rw [testBit_or_shift]
  rcases eq_or_ne i k with e | e
  · simp [e, h]
  · simp [e]

theorem or_shift_lt {a k : Nat} (ha : a < 256) (hk : k < 8) : a ||| (1 <<< k) < 256 := by
  have h1 : (1 <<< k) < 256 := by
    rw [Nat.one_shiftLeft]
    calc 2 ^ k ≤ 2 ^ 7 := Nat.pow_le_pow_right (by norm_num) (by omega)
    _ < 256 := by norm_num
  exact Nat.or_lt_two_pow (n := 8) ha h1

/-- Slot indices are recoverable from (byte, bit) pairs: two slots agree
iff their byte index and bit offset agree. -/
theorem div_mod_inj {i j : Nat} (h1 : i / 8 = j / 8) (h2 : i % 8 = j % 8) : i = j := by
  omega

/-! ### Slot-index lemmas -/

theorem indicesOf_lt {size : Nat} (h : 0 < size) (nhash : Nat) (item : List Nat) :
    ∀ index ∈ indicesOf size nhash item, index < size := by
  intro index hidx
  simp only [indicesOf, List.mem_map, List.mem_range] at hidx
  obtain ⟨i, _, rfl⟩ := hidx
  exact Nat.mod_lt _ h

theorem mem_indicesOf_iff {size nhash : Nat} {item : List Nat} {index : Nat} :
    index ∈ indicesOf size nhash item ↔ ∃ i < nhash, bfHash size item i = index := by
  simp [indicesOf, List.mem_map, List.mem_range]

theorem idx_div_lt {index size : Nat} (h0 : 0 < size) (h : index < size) :
    index / 8 < (size + 7) / 8 := by
  have h1 : index ≤ size - 1 := by omega
  have h2 : index / 8 ≤ (size - 1) / 8 := Nat.div_le_div_right h1
  have h4 : ((size - 1) + 8) / 8 = (size - 1) / 8 + 1 := Nat.add_div_right _ (by norm_num)
  have h3 : (size - 1) + 8 = size + 7 := by omega
  omega

theorem getD_mem : ∀ (l : List Nat) (i : Nat), i < l.length → l.getD i 0 ∈ l
  | a :: _, 0, _ => List.mem_cons_self a _
  | _ :: l, i + 1, h => List.mem_cons_of_mem _ (getD_mem l i (by simpa using h))

/-! ### `setBitLoop` specification -/

/-- Effect of one bit-setting store on an arbitrary slot. -/
theorem getBit_set_or (fd : List Nat) (index i : Nat) (h : index / 8 < fd.length) :
    getBit (fd.set (index / 8) ((fd.getD (index / 8) 0) ||| (1 <<< (index % 8)))) i
      = (getBit fd i || decide (i = index)) := by
  unfold getBit
  rcases eq_or_ne (i / 8) (index / 8) with hd | hd
  · rw [hd, getD_set_self _ _ _ h, testBit_or_shift]
    rcases eq_or_ne (i % 8) (index % 8) with hm | hm
    · have : i = index := div_mod_inj hd hm
      simp [this, hm]
    · have : i ≠ index := fun e => hm (by rw [e])
      simp [this, hm]
  · rw [getD_set_ne _ _ _ _ (Ne.symm hd)]
    have : i ≠ index := fun e => hd (by rw [e])
    simp [this]

theorem setBitLoop_spec : ∀ (idxs fd : List Nat),
    (∀ index ∈ idxs, index / 8 < fd.length) → (∀ b ∈ fd, b < 256) →
    (setBitLoop fd idxs).2 = true ∧
    (setBitLoop fd idxs).1.length = fd.length ∧
    (∀ b ∈ (setBitLoop fd idxs).1, b < 256) ∧
    (∀ i, getBit (setBitLoop fd idxs).1 i = (getBit fd i || decide (i ∈ idxs)))
  | [], fd, _, hby => ⟨rfl, rfl, hby, fun i => by simp [setBitLoop]⟩
  | index :: rest, fd, hin, hby => by
    have hlen : index / 8 < fd.length := hin index (List.mem_cons_self _ _)
    have hbyte : fd.getD (index / 8) 0 < 256 := hby _ (getD_mem fd _ hlen)
    have hv : (fd.getD (index / 8) 0) ||| (1 <<< (index % 8)) < 256 :=
      or_shift_lt hbyte (Nat.mod_lt _ (by norm_num))
    have hstep : setBitLoop fd (index :: rest)
        = setBitLoop (fd.set (index / 8) ((fd.getD (index / 8) 0) ||| (1 <<< (index % 8)))) rest := by
      simp only [setBitLoop]
      rw [if_pos hlen, if_pos hv]
    have hlen2 : (fd.set (index / 8) ((fd.getD (index / 8) 0) ||| (1 <<< (index % 8)))).length
        = fd.length := by simp
    have hin2 : ∀ j ∈ rest,
        j / 8 < (fd.set (index / 8) ((fd.getD (index / 8) 0) ||| (1 <<< (index % 8)))).length := by
      intro j hj; rw [hlen2]; exact hin j (List.mem_cons_of_mem _ hj)
    have hby2 : ∀ b ∈ fd.set (index / 8) ((fd.getD (index / 8) 0) ||| (1 <<< (index % 8))),
        b < 256 := by
      intro b hb
      rcases List.mem_or_eq_of_mem_set hb with hb | rfl
      · exact hby b hb
      · exact hv
    obtain ⟨ih1, ih2, ih3, ih4⟩ := setBitLoop_spec rest _ hin2 hby2
    refine ⟨by rw [hstep]; exact ih1, by rw [hstep, ih2, hlen2], by rw [hstep]; exact ih3, ?_⟩
    intro i
    rw [hstep, ih4 i, getBit_set_or fd index i hlen]
    by_cases h1 : i = index <;> by_cases h2 : i ∈ rest <;>
      simp [h1, h2, List.mem_cons]

/-! ### `bitQueryLoop` specification -/

theorem bitQueryLoop_spec : ∀ (idxs fd : List Nat),
    (∀ index ∈ idxs, index / 8 < fd.length) →
    bitQueryLoop fd idxs = some (idxs.all fun index => getBit fd index)
  | [], _, _ => rfl
  | index :: rest, fd, hin => by
    have hlen : index / 8 < fd.length := hin index (List.mem_cons_self _ _)
    have ih := bitQueryLoop_spec rest fd (fun j hj => hin j (List.mem_cons_of_mem _ hj))
    simp only [bitQueryLoop, List.all_cons]
    rw [if_pos hlen]
    by_cases hz : (fd.getD (index / 8) 0) &&& (1 <<< (index % 8)) = 0
    · have hbit : getBit fd index = false := (and_shift_eq_zero_iff _ _).mp hz
      rw [if_pos hz, hbit]
      simp
    · have hbit : getBit fd index = true := by
        unfold getBit
        rcases Bool.eq_false_or_eq_true ((fd.getD (index / 8) 0).testBit (index % 8)) with h | h
        · exact h
        · exact absurd ((and_shift_eq_zero_iff _ _).mpr h) hz
      rw [if_neg hz, ih, hbit]
      simp

/-! ### Counting lemmas for `List.count` over `Nat` -/

theorem count_cons_self_nat (a : Nat) (l : List Nat) : (a :: l).count a = l.count a + 1 := by
  simp [List.count_cons]

theorem count_cons_ne_nat {a i : Nat} (h : i ≠ a) (l : List Nat) :
    (a :: l).count i = l.count i := by
  simp [List.count_cons, Ne.symm h]

/-! ### `incrLoop` specification -/

theorem incrLoop_spec : ∀ (idxs fd : List Nat),
    (∀ index ∈ idxs, index < fd.length) →
    (∀ b ∈ fd, b < 256) →
    (∀ i, i < fd.length → fd.getD i 0 + idxs.count i ≤ 255) →
    (incrLoop fd idxs).2 = true ∧
    (incrLoop fd idxs).1.length = fd.length ∧
    (∀ b ∈ (incrLoop fd idxs).1, b < 256) ∧
    (∀ i, (incrLoop fd idxs).1.getD i 0 = fd.getD i 0 + idxs.count i)
  | [], fd, _, hby, _ => ⟨rfl, rfl, hby, fun i => by simp [incrLoop]⟩
  | index :: rest, fd, hin, hby, hhead => by
    have hlen : index < fd.length := hin index (List.mem_cons_self _ _)
    have hc := hhead index hlen
    rw [count_cons_self_nat] at hc
    have hv : fd.getD index 0 + 1 < 256 := by omega
    have hstep : incrLoop fd (index :: rest)
        = incrLoop (fd.set index (fd.getD index 0 + 1)) rest := by
      simp only [incrLoop]
      rw [if_pos hlen, if_pos hv]
    have hlen2 : (fd.set index (fd.getD index 0 + 1)).length = fd.length := by simp
    have hin2 : ∀ j ∈ rest, j < (fd.set index (fd.getD index 0 + 1)).length := by
      intro j hj; rw [hlen2]; exact hin j (List.mem_cons_of_mem _ hj)
    have hby2 : ∀ b ∈ fd.set index (fd.getD index 0 + 1), b < 256 := by
      intro b hb
      rcases List.mem_or_eq_of_mem_set hb with hb | rfl
      · exact hby b hb
      · exact hv
    have hhead2 : ∀ i, i < (fd.set index (fd.getD index 0 + 1)).length →
        (fd.set index (fd.getD index 0 + 1)).getD i 0 + rest.count i ≤ 255 := by
      intro i hi
      rw [hlen2] at hi
      rcases eq_or_ne i index with rfl | hne
      · rw [getD_set_self _ _ _ hlen]; omega
      · rw [getD_set_ne _ _ _ _ (Ne.symm hne)]
        have := hhead i hi
        rw [count_cons_ne_nat hne] at this
        exact this
    obtain ⟨ih1, ih2, ih3, ih4⟩ := incrLoop_spec rest _ hin2 hby2 hhead2
    refine ⟨by rw [hstep]; exact ih1, by rw [hstep, ih2, hlen2], by rw [hstep]; exact ih3, ?_⟩
    intro i
    rw [hstep, ih4 i]
    rcases eq_or_ne i index with rfl | hne
    · rw [getD_set_self _ _ _ hlen, count_cons_self_nat]; omega
    · rw [getD_set_ne _ _ _ _ (Ne.symm hne), count_cons_ne_nat hne]

/-- If `incrLoop` returns normally, every counter went up by the
multiplicity of its index, with no extra hypotheses. -/
theorem incrLoop_effect_of_ok : ∀ (idxs fd : List Nat), (incrLoop fd idxs).2 = true →
    (incrLoop fd idxs).1.length = fd.length ∧
    (∀ i, (incrLoop fd idxs).1.getD i 0 = fd.getD i 0 + idxs.count i)
  | [], fd, _ => ⟨rfl, fun i => by simp [incrLoop]⟩
  | index :: rest, fd, hok => by
    by_cases hlen : index < fd.length
    · by_cases hv : fd.getD index 0 + 1 < 256
      · have hstep : incrLoop fd (index :: rest)
            = incrLoop (fd.set index (fd.getD index 0 + 1)) rest := by
          simp only [incrLoop]
          rw [if_pos hlen, if_pos hv]
        rw [hstep] at hok
        obtain ⟨ih1, ih2⟩ := incrLoop_effect_of_ok rest _ hok
        refine ⟨by rw [hstep, ih1]; simp, ?_⟩
        intro i
        rw [hstep, ih2 i]
        rcases eq_or_ne i index with rfl | hne
        · rw [getD_set_self _ _ _ hlen, count_cons_self_nat]; omega
        · rw [getD_set_ne _ _ _ _ (Ne.symm hne), count_cons_ne_nat hne]
      · have : incrLoop fd (index :: rest) = (fd, false) := by
          simp only [incrLoop]
          rw [if_pos hlen, if_neg hv]
        rw [this] at hok
        simp at hok
    · have : incrLoop fd (index :: rest) = (fd, false) := by
        simp only [incrLoop]
        rw [if_neg hlen]
      rw [this] at hok
      simp at hok

/-- `incrLoop` never decreases any counter and never changes the length,
whether or not it raises. -/
theorem incrLoop_mono : ∀ (idxs fd : List Nat) (i : Nat),
    fd.getD i 0 ≤ (incrLoop fd idxs).1.getD i 0 ∧
    (incrLoop fd idxs).1.length = fd.length
  | [], fd, i => ⟨Nat.le_refl _, rfl⟩
  | index :: rest, fd, i => by
    by_cases hlen : index < fd.length
    · by_cases hv : fd.getD index 0 + 1 < 256
      · have hstep : incrLoop fd (index :: rest)
            = incrLoop (fd.set index (fd.getD index 0 + 1)) rest := by
          simp only [incrLoop]
          rw [if_pos hlen, if_pos hv]
        obtain ⟨ih1, ih2⟩ := incrLoop_mono rest (fd.set index (fd.getD index 0 + 1)) i
        have hmid : fd.getD i 0 ≤ (fd.set index (fd.getD index 0 + 1)).getD i 0 := by
          rcases eq_or_ne i index with rfl | hne
          · rw [getD_set_self _ _ _ hlen]; omega
          · rw [getD_set_ne _ _ _ _ (Ne.symm hne)]
        exact ⟨by rw [hstep]; omega, by rw [hstep, ih2]; simp⟩
      · have : incrLoop fd (index :: rest) = (fd, false) := by
          simp only [incrLoop]
          rw [if_pos hlen, if_neg hv]
        rw [this]
        exact ⟨Nat.le_refl _, rfl⟩
    · have : incrLoop fd (index :: rest) = (fd, false) := by
        simp only [incrLoop]
        rw [if_neg hlen]
      rw [this]
      exact ⟨Nat.le_refl _, rfl⟩

/-! ### `cntQueryLoop` specification -/

theorem cntQueryLoop_spec : ∀ (idxs fd : List Nat),
    (∀ index ∈ idxs, index < fd.length) →
    cntQueryLoop fd idxs = some (idxs.all fun index => decide (0 < fd.getD index 0))
  | [], _, _ => rfl
  | index :: rest, fd, hin => by
    have hlen : index < fd.length := hin index (List.mem_cons_self _ _)
    have ih := cntQueryLoop_spec rest fd (fun j hj => hin j (List.mem_cons_of_mem _ hj))
    simp only [cntQueryLoop, List.all_cons]
    rw [if_pos hlen]
    by_cases hz : fd.getD index 0 = 0
    · rw [if_pos hz, hz]
      simp
    · rw [if_neg hz, ih]
      have : decide (0 < fd.getD index 0) = true := by simpa using Nat.pos_of_ne_zero hz
      rw [this]
      simp

/-! ### `deleteCheck` specification -/

/-- When every addressed counter is positive, the first pass collects
exactly the addressed indices, in seed order. -/
theorem deleteCheck_pos : ∀ (idxs fd : List Nat),
    (∀ index ∈ idxs, index < fd.length) →
    (∀ index ∈ idxs, 0 < fd.getD index 0) →
    deleteCheck fd idxs = some (some idxs)
  | [], _, _, _ => rfl
  | index :: rest, fd, hin, hpos => by
    have hlen : index < fd.length := hin index (List.mem_cons_self _ _)
    have hp : 0 < fd.getD index 0 := hpos index (List.mem_cons_self _ _)
    have ih := deleteCheck_pos rest fd (fun j hj => hin j (List.mem_cons_of_mem _ hj))
      (fun j hj => hpos j (List.mem_cons_of_mem _ hj))
    simp only [deleteCheck]
    rw [if_pos hlen, if_neg (by omega), ih]

/-- When some addressed counter is zero, the first pass ends in the
benign early `return`. -/
theorem deleteCheck_zero : ∀ (idxs fd : List Nat),
    (∀ index ∈ idxs, index < fd.length) →
    (∃ index ∈ idxs, fd.getD index 0 = 0) →
    deleteCheck fd idxs = some none
  | [], _, _, hex => absurd hex (by simp)
  | index :: rest, fd, hin, hex => by
    have hlen : index < fd.length := hin index (List.mem_cons_self _ _)
    by_cases hz : fd.getD index 0 = 0
    · simp only [deleteCheck]
      rw [if_pos hlen, if_pos hz]
    · obtain ⟨j, hj, hjz⟩ := hex
      have hjr : j ∈ rest := by
        rcases List.mem_cons.mp hj with rfl | h
        · exact absurd hjz hz
        · exact h
      have ih := deleteCheck_zero rest fd (fun k hk => hin k (List.mem_cons_of_mem _ hk))
        ⟨j, hjr, hjz⟩
      simp only [deleteCheck]
      rw [if_pos hlen, if_neg hz, ih]

/-! ### `decrLoop` specification -/

theorem decrLoop_spec : ∀ (idxs fd : List Nat),
    (∀ index ∈ idxs, index < fd.length) →
    (∀ b ∈ fd, b < 256) →
    (∀ i, idxs.count i ≤ fd.getD i 0) →
    (decrLoop fd idxs).2 = true ∧
    (decrLoop fd idxs).1.length = fd.length ∧
    (∀ b ∈ (decrLoop fd idxs).1, b < 256) ∧
    (∀ i, (decrLoop fd idxs).1.getD i 0 = fd.getD i 0 - idxs.count i) ∧
    (decrLoop fd idxs).1.sum + idxs.length = fd.sum
  | [], fd, _, hby, _ => ⟨rfl, rfl, hby, fun i => by simp [decrLoop], by simp [decrLoop]⟩
  | index :: rest, fd, hin, hby, hcnt => by
    have hlen : index < fd.length := hin index (List.mem_cons_self _ _)
    have hc := hcnt index
    rw [count_cons_self_nat] at hc
    have hz : ¬ fd.getD index 0 = 0 := by omega
    have hv : fd.getD index 0 - 1 < 256 := by
      have := hby _ (getD_mem fd _ hlen)
      omega
    have hstep : decrLoop fd (index :: rest)
        = decrLoop (fd.set index (fd.getD index 0 - 1)) rest := by
      simp only [decrLoop]
      rw [if_pos hlen, if_neg hz, if_pos hv]
    have hlen2 : (fd.set index (fd.getD index 0 - 1)).length = fd.length := by simp
    have hin2 : ∀ j ∈ rest, j < (fd.set index (fd.getD index 0 - 1)).length := by
      intro j hj; rw [hlen2]; exact hin j (List.mem_cons_of_mem _ hj)
    have hby2 : ∀ b ∈ fd.set index (fd.getD index 0 - 1), b < 256 := by
      intro b hb
      rcases List.mem_or_eq_of_mem_set hb with hb | rfl
      · exact hby b hb
      · exact hv
    have hcnt2 : ∀ i, rest.count i ≤ (fd.set index (fd.getD index 0 - 1)).getD i 0 := by
      intro i
      rcases eq_or_ne i index with rfl | hne
      · rw [getD_set_self _ _ _ hlen]; omega
      · rw [getD_set_ne _ _ _ _ (Ne.symm hne)]
        have := hcnt i
        rw [count_cons_ne_nat hne] at this
        exact this
    obtain ⟨ih1, ih2, ih3, ih4, ih5⟩ := decrLoop_spec rest _ hin2 hby2 hcnt2
    have hsum : (fd.set index (fd.getD index 0 - 1)).sum + 1 = fd.sum := by
      have := sum_set_add fd index (fd.getD index 0 - 1) hlen
      omega
    refine ⟨by rw [hstep]; exact ih1, by rw [hstep, ih2, hlen2],
      by rw [hstep]; exact ih3, ?_, ?_⟩
    · intro i
      rw [hstep, ih4 i]
      rcases eq_or_ne i index with rfl | hne
      · rw [getD_set_self _ _ _ hlen, count_cons_self_nat]; omega
      · rw [getD_set_ne _ _ _ _ (Ne.symm hne), count_cons_ne_nat hne]
    · rw [hstep]
      have : (index :: rest).length = rest.length + 1 := rfl
      omega

/-! ### Operation-level specifications -/

theorem bfAdd_spec (bf : BloomFilter) (x : List Nat) (h : wfB bf) :
    (bf.add x).2 = true ∧
    (bf.add x).1.size = bf.size ∧ (bf.add x).1.nhash = bf.nhash ∧
    wfB (bf.add x).1 ∧
    (∀ i, getBit (bf.add x).1.filter_data i
      = (getBit bf.filter_data i || decide (i ∈ indicesOf bf.size bf.nhash x))) := by
  obtain ⟨hs, hlen, hby⟩ := h
  have hin : ∀ index ∈ indicesOf bf.size bf.nhash x, index / 8 < bf.filter_data.length := by
    intro index hidx
    rw [hlen]
    exact idx_div_lt hs (indicesOf_lt hs _ _ index hidx)
  obtain ⟨h1, h2, h3, h4⟩ := setBitLoop_spec (indicesOf bf.size bf.nhash x) bf.filter_data hin hby
  refine ⟨h1, rfl, rfl, ⟨hs, ?_, h3⟩, h4⟩
  show (setBitLoop bf.filter_data (indicesOf bf.size bf.nhash x)).1.length = (bf.size + 7) / 8
  rw [h2, hlen]

theorem bfQuery_spec (bf : BloomFilter) (x : List Nat) (h : wfB bf) :
    bf.query x
      = some ((indicesOf bf.size bf.nhash x).all fun index => getBit bf.filter_data index) := by
  obtain ⟨hs, hlen, _⟩ := h
  have hin : ∀ index ∈ indicesOf bf.size bf.nhash x, index / 8 < bf.filter_data.length := by
    intro index hidx
    rw [hlen]
    exact idx_div_lt hs (indicesOf_lt hs _ _ index hidx)
  exact bitQueryLoop_spec _ _ hin

theorem cbfAdd_ok_spec (cbf : CountingBloomFilter) (x : List Nat) (h : wfC cbf)
    (hhead : ∀ i, i < cbf.size →
      cbf.filter_data.getD i 0 + (indicesOf cbf.size cbf.nhash x).count i ≤ 255) :
    (cbf.add x).2 = true ∧
    (cbf.add x).1.size = cbf.size ∧ (cbf.add x).1.nhash = cbf.nhash ∧
    wfC (cbf.add x).1 ∧
    (∀ i, (cbf.add x).1.filter_data.getD i 0
      = cbf.filter_data.getD i 0 + (indicesOf cbf.size cbf.nhash x).count i) := by
  obtain ⟨hs, hlen, hby⟩ := h
  have hin : ∀ index ∈ indicesOf cbf.size cbf.nhash x, index < cbf.filter_data.length := by
    intro index hidx
    rw [hlen]
    exact indicesOf_lt hs _ _ index hidx
  have hhead2 : ∀ i, i < cbf.filter_data.length →
      cbf.filter_data.getD i 0 + (indicesOf cbf.size cbf.nhash x).count i ≤ 255 := by
    intro i hi
    exact hhead i (by rwa [hlen] at hi)
  obtain ⟨h1, h2, h3, h4⟩ :=
    incrLoop_spec (indicesOf cbf.size cbf.nhash x) cbf.filter_data hin hby hhead2
  refine ⟨h1, rfl, rfl, ⟨hs, ?_, h3⟩, h4⟩
  show (incrLoop cbf.filter_data (indicesOf cbf.size cbf.nhash x)).1.length = cbf.size
  rw [h2, hlen]

theorem cbfQuery_spec (cbf : CountingBloomFilter) (x : List Nat) (h : wfC cbf) :
    cbf.query x = some ((indicesOf cbf.size cbf.nhash x).all
      fun index => decide (0 < cbf.filter_data.getD index 0)) := by
  obtain ⟨hs, hlen, _⟩ := h
  have hin : ∀ index ∈ indicesOf cbf.size cbf.nhash x, index < cbf.filter_data.length := by
    intro index hidx
    rw [hlen]
    exact indicesOf_lt hs _ _ index hidx
  exact cntQueryLoop_spec _ _ hin

/-- A delete that meets a zero counter is the benign no-op: the state is
returned untouched and no exception is raised. -/
theorem cbfDelete_noop (cbf : CountingBloomFilter) (x : List Nat) (h : wfC cbf)
    (hz : ∃ index ∈ indicesOf cbf.size cbf.nhash x, cbf.filter_data.getD index 0 = 0) :
    cbf.delete x = (cbf, true) := by
  obtain ⟨hs, hlen, _⟩ := h
  have hin : ∀ index ∈ indicesOf cbf.size cbf.nhash x, index < cbf.filter_data.length := by
    intro index hidx
    rw [hlen]
    exact indicesOf_lt hs _ _ index hidx
  have hd := deleteCheck_zero (indicesOf cbf.size cbf.nhash x) cbf.filter_data hin hz
  simp only [CountingBloomFilter.delete]
  rw [hd]

/-- A delete whose addressed counters cover the seed multiplicities
returns normally and decrements each slot by its multiplicity; the sum
of all counters drops by exactly `nhash`. -/
theorem cbfDelete_ok (cbf : CountingBloomFilter) (x : List Nat) (h : wfC cbf)
    (hcnt : ∀ i, (indicesOf cbf.size cbf.nhash x).count i ≤ cbf.filter_data.getD i 0) :
    (cbf.delete x).2 = true ∧
    (cbf.delete x).1.size = cbf.size ∧ (cbf.delete x).1.nhash = cbf.nhash ∧
    wfC (cbf.delete x).1 ∧
    (∀ i, (cbf.delete x).1.filter_data.getD i 0
      = cbf.filter_data.getD i 0 - (indicesOf cbf.size cbf.nhash x).count i) ∧
    (cbf.delete x).1.filter_data.sum + cbf.nhash = cbf.filter_data.sum := by
  obtain ⟨hs, hlen, hby⟩ := h
  have hin : ∀ index ∈ indicesOf cbf.size cbf.nhash x, index < cbf.filter_data.length := by
    intro index hidx
    rw [hlen]
    exact indicesOf_lt hs _ _ index hidx
  have hpos : ∀ index ∈ indicesOf cbf.size cbf.nhash x, 0 < cbf.filter_data.getD index 0 := by
    intro index hidx
    have h1 : 0 < (indicesOf cbf.size cbf.nhash x).count index := List.count_pos_iff.mpr hidx
    have h2 := hcnt index
    omega
  have hd := deleteCheck_pos (indicesOf cbf.size cbf.nhash x) cbf.filter_data hin hpos
  obtain ⟨h1, h2, h3, h4, h5⟩ :=
    decrLoop_spec (indicesOf cbf.size cbf.nhash x) cbf.filter_data hin hby hcnt
  have hlength : (indicesOf cbf.size cbf.nhash x).length = cbf.nhash := by
    simp [indicesOf]
  have hunf : cbf.delete x
      = (CountingBloomFilter.mk cbf.size cbf.nhash
          (decrLoop cbf.filter_data (indicesOf cbf.size cbf.nhash x)).1,
        (decrLoop cbf.filter_data (indicesOf cbf.size cbf.nhash x)).2) := by
    simp only [CountingBloomFilter.delete]
    rw [hd]
  rw [hunf]
  refine ⟨h1, rfl, rfl, ⟨hs, ?_, h3⟩, h4, ?_⟩
  · show (decrLoop cbf.filter_data (indicesOf cbf.size cbf.nhash x)).1.length = cbf.size
    rw [h2, hlen]
  · show (decrLoop cbf.filter_data (indicesOf cbf.size cbf.nhash x)).1.sum + cbf.nhash
      = cbf.filter_data.sum
    omega

/-! ### Sequences of adds -/

theorem all_congr_mem {α : Type} : ∀ (l : List α) (f g : α → Bool),
    (∀ a ∈ l, f a = g a) → l.all f = l.all g
  | [], _, _, _ => rfl
  | a :: l, f, g, h => by
    rw [List.all_cons, List.all_cons, h a (List.mem_cons_self _ _),
      all_congr_mem l f g (fun b hb => h b (List.mem_cons_of_mem _ hb))]

theorem bfAddAll_spec : ∀ (items : List (List Nat)) (bf : BloomFilter), wfB bf →
    (bf.addAll items).2 = true ∧
    (bf.addAll items).1.size = bf.size ∧ (bf.addAll items).1.nhash = bf.nhash ∧
    wfB (bf.addAll items).1 ∧
    (∀ i, getBit bf.filter_data i = true → getBit (bf.addAll items).1.filter_data i = true) ∧
    (∀ x ∈ items, ∀ index ∈ indicesOf bf.size bf.nhash x,
        getBit (bf.addAll items).1.filter_data index = true)
  | [], bf, h => ⟨rfl, rfl, rfl, h, fun _ hi => hi, fun x hx => absurd hx (by simp)⟩
  | x :: xs, bf, h => by
    obtain ⟨hok, hsz, hnh, hwf, heff⟩ := bfAdd_spec bf x h
    have hstep : bf.addAll (x :: xs) = (bf.add x).1.addAll xs := by
      simp only [BloomFilter.addAll]
      rw [if_pos hok]
    obtain ⟨ih1, ih2, ih3, ih4, ih5, ih6⟩ := bfAddAll_spec xs (bf.add x).1 hwf
    have hmono : ∀ i, getBit bf.filter_data i = true →
        getBit ((bf.add x).1.addAll xs).1.filter_data i = true := by
      intro i hi
      apply ih5
      rw [heff i, hi]
      simp
    refine ⟨by rw [hstep]; exact ih1, by rw [hstep, ih2, hsz], by rw [hstep, ih3, hnh],
      by rw [hstep]; exact ih4, by rw [hstep]; exact hmono, ?_⟩
    intro y hy index hidx
    rw [hstep]
    rcases List.mem_cons.mp hy with rfl | hym
    · apply ih5
      rw [heff index]
      have : index ∈ indicesOf bf.size bf.nhash y := hidx
      simp [this]
    · have hidx2 : index ∈ indicesOf (bf.add x).1.size (bf.add x).1.nhash y := by
        rw [hsz, hnh]; exact hidx
      exact ih6 y hym index hidx2

/-- `incrLoop` keeps every stored value a byte, raise or no raise. -/
theorem incrLoop_bounds : ∀ (idxs fd : List Nat), (∀ b ∈ fd, b < 256) →
    ∀ b ∈ (incrLoop fd idxs).1, b < 256
  | [], _, hby => hby
  | index :: rest, fd, hby => by
    by_cases hlen : index < fd.length
    · by_cases hv : fd.getD index 0 + 1 < 256
      · have hstep : incrLoop fd (index :: rest)
            = incrLoop (fd.set index (fd.getD index 0 + 1)) rest := by
          simp only [incrLoop]
          rw [if_pos hlen, if_pos hv]
        rw [hstep]
        apply incrLoop_bounds rest
        intro b hb
        rcases List.mem_or_eq_of_mem_set hb with hb | rfl
        · exact hby b hb
        · exact hv
      · have hstep : incrLoop fd (index :: rest) = (fd, false) := by
          simp only [incrLoop]
          rw [if_pos hlen, if_neg hv]
        rw [hstep]
        exact hby
    · have hstep : incrLoop fd (index :: rest) = (fd, false) := by
        simp only [incrLoop]
        rw [if_neg hlen]
      rw [hstep]
      exact hby

/-- Joint induction for the refinement claim: running the same adds on a
bitset filter and a counting filter with equal sizing preserves the
linking invariant (bit set iff counter positive), provided the counting
run raises no exception. -/
theorem addAll_link : ∀ (items : List (List Nat)) (bf : BloomFilter)
    (cbf : CountingBloomFilter), wfB bf → wfC cbf →
    bf.size = cbf.size → bf.nhash = cbf.nhash →
    (∀ i, i < cbf.size → getBit bf.filter_data i = decide (0 < cbf.filter_data.getD i 0)) →
    (cbf.addAll items).2 = true →
    wfB (bf.addAll items).1 ∧ wfC (cbf.addAll items).1 ∧
    (bf.addAll items).1.size = bf.size ∧ (cbf.addAll items).1.size = cbf.size ∧
    (bf.addAll items).1.nhash = bf.nhash ∧ (cbf.addAll items).1.nhash = cbf.nhash ∧
    (∀ i, i < cbf.size → getBit (bf.addAll items).1.filter_data i
        = decide (0 < (cbf.addAll items).1.filter_data.getD i 0))
  | [], bf, cbf, hwb, hwc, _, _, hlink, _ => ⟨hwb, hwc, rfl, rfl, rfl, rfl, hlink⟩
  | x :: xs, bf, cbf, hwb, hwc, hsz, hnh, hlink, hok => by
    have hcstep0 : cbf.addAll (x :: xs) =
        (if (cbf.add x).2 then (cbf.add x).1.addAll xs else ((cbf.add x).1, false)) := by
      simp only [CountingBloomFilter.addAll]
    have hcok : (cbf.add x).2 = true := by
      by_contra hc
      rw [hcstep0, if_neg hc] at hok
      simp at hok
    have hcstep : cbf.addAll (x :: xs) = (cbf.add x).1.addAll xs := by
      rw [hcstep0, if_pos hcok]
    rw [hcstep] at hok
    obtain ⟨hbok, hbsz, hbnh, hbwf, hbeff⟩ := bfAdd_spec bf x hwb
    have hbstep : bf.addAll (x :: xs) = (bf.add x).1.addAll xs := by
      simp only [BloomFilter.addAll]
      rw [if_pos hbok]
    obtain ⟨hclen, hceff⟩ := incrLoop_effect_of_ok (indicesOf cbf.size cbf.nhash x)
      cbf.filter_data hcok
    have hcwf : wfC (cbf.add x).1 := by
      refine ⟨hwc.1, ?_, ?_⟩
      · show (incrLoop cbf.filter_data (indicesOf cbf.size cbf.nhash x)).1.length = cbf.size
        rw [hclen, hwc.2.1]
      · exact incrLoop_bounds _ _ hwc.2.2
    have hlink2 : ∀ i, i < (cbf.add x).1.size →
        getBit (bf.add x).1.filter_data i
          = decide (0 < (cbf.add x).1.filter_data.getD i 0) := by
      intro i hi
      have hi0 : i < cbf.size := hi
      rw [hbeff i, hlink i hi0]
      have : (cbf.add x).1.filter_data.getD i 0
          = cbf.filter_data.getD i 0 + (indicesOf cbf.size cbf.nhash x).count i := hceff i
      rw [this]
      have hmemiff : (decide (i ∈ indicesOf bf.size bf.nhash x))
          = decide (0 < (indicesOf cbf.size cbf.nhash x).count i) := by
        rw [hsz, hnh]
        by_cases hm : i ∈ indicesOf cbf.size cbf.nhash x
        · simp [hm, List.count_pos_iff.mpr hm]
        · have : (indicesOf cbf.size cbf.nhash x).count i = 0 :=
            count_eq_zero_of_not_mem hm
          simp [hm, this]
      rw [hmemiff]
      by_cases hp : 0 < cbf.filter_data.getD i 0 <;>
        by_cases hq : 0 < (indicesOf cbf.size cbf.nhash x).count i <;>
        simp [hp, hq]
    obtain ⟨ih1, ih2, ih3, ih4, ih5, ih6, ih7⟩ :=
      addAll_link xs (bf.add x).1 (cbf.add x).1 hbwf hcwf
        (by rw [hbsz, hsz]; rfl) (by rw [hbnh, hnh]; rfl) hlink2 hok
    refine ⟨by rw [hbstep]; exact ih1, by rw [hcstep]; exact ih2,
      by rw [hbstep, ih3, hbsz], by rw [hcstep, ih4]; rfl,
      by rw [hbstep, ih5, hbnh], by rw [hcstep, ih6]; rfl, ?_⟩
    intro i hi
    rw [hbstep, hcstep]
    exact ih7 i hi

/-! ### Digest width bounds -/

theorem foldl_mul_add_lt (B : Nat) : ∀ (l : List Nat) (a : Nat),
    (∀ w ∈ l, w < B) → List.foldl (fun x w => x * B + w) a l < (a + 1) * B ^ l.length
  | [], a, _ => by simp
  | w :: l, a, h => by
    have hw : w < B := h w (List.mem_cons_self _ _)
    have ih := foldl_mul_add_lt B l (a * B + w)
      (fun v hv => h v (List.mem_cons_of_mem _ hv))
    have h2 : a * B + w + 1 ≤ (a + 1) * B := by
      have he : (a + 1) * B = a * B + B := by ring
      omega
    have h1 : (a * B + w + 1) * B ^ l.length ≤ (a + 1) * B ^ (w :: l).length := by
      calc (a * B + w + 1) * B ^ l.length ≤ ((a + 1) * B) * B ^ l.length :=
            Nat.mul_le_mul_right _ h2
      _ = (a + 1) * B ^ (l.length + 1) := by ring
      _ = (a + 1) * B ^ (w :: l).length := by rw [List.length_cons]
    exact lt_of_lt_of_le ih h1

theorem wordsToNat_lt {B : Nat} {l : List Nat} (h : ∀ w ∈ l, w < B) :
    wordsToNat B l < B ^ l.length := by
  have := foldl_mul_add_lt B l 0 h
  simpa [wordsToNat] using this

theorem foldl_preserve {α β : Type} (f : α → β → α) (P : α → Prop)
    (hf : ∀ a b, P a → P (f a b)) : ∀ (l : List β) (a : α), P a → P (List.foldl f a l)
  | [], _, h => h
  | b :: l, a, h => foldl_preserve f P hf l (f a b) (hf a b h)

theorem sha256Compress_shape (hs block : List Nat) :
    (sha256Compress hs block).length = 8 ∧ ∀ v ∈ sha256Compress hs block, v < 4294967296 := by
  simp only [sha256Compress]
  generalize ((sha256K.zip (sha256Schedule (toWords32BE block))).foldl sha256Round
    (hs.getD 0 0, hs.getD 1 0, hs.getD 2 0, hs.getD 3 0,
     hs.getD 4 0, hs.getD 5 0, hs.getD 6 0, hs.getD 7 0)) = r
  obtain ⟨a, b, c, d, e, f, gg, hh⟩ := r
  refine ⟨rfl, ?_⟩
  intro v hv
  simp only [List.mem_cons, List.not_mem_nil, or_false] at hv
  rcases hv with rfl | rfl | rfl | rfl | rfl | rfl | rfl | rfl <;>
    exact Nat.mod_lt _ (by norm_num)

theorem sha1Compress_shape (hs block : List Nat) :
    (sha1Compress hs block).length = 5 ∧ ∀ v ∈ sha1Compress hs block, v < 4294967296 := by
  simp only [sha1Compress]
  generalize (((List.range 80).zip (sha1Schedule (toWords32BE block))).foldl sha1Round
    (hs.getD 0 0, hs.getD 1 0, hs.getD 2 0, hs.getD 3 0, hs.getD 4 0)) = r
  obtain ⟨a, b, c, d, e⟩ := r
  refine ⟨rfl, ?_⟩
  intro v hv
  simp only [List.mem_cons, List.not_mem_nil, or_false] at hv
  rcases hv with rfl | rfl | rfl | rfl | rfl <;>
    exact Nat.mod_lt _ (by norm_num)

theorem sha512Compress_shape (hs block : List Nat) :
    (sha512Compress hs block).length = 8 ∧
    ∀ v ∈ sha512Compress hs block, v < 18446744073709551616 := by
  simp only [sha512Compress]
  generalize ((sha512K.zip (sha512Schedule (toWords64BE block))).foldl sha512Round
    (hs.getD 0 0, hs.getD 1 0, hs.getD 2 0, hs.getD 3 0,
     hs.getD 4 0, hs.getD 5 0, hs.getD 6 0, hs.getD 7 0)) = r
  obtain ⟨a, b, c, d, e, f, gg, hh⟩ := r
  refine ⟨rfl, ?_⟩
  intro v hv
  simp only [List.mem_cons, List.not_mem_nil, or_false] at hv
  rcases hv with rfl | rfl | rfl | rfl | rfl | rfl | rfl | rfl <;>
    exact Nat.mod_lt _ (by norm_num)

theorem sha256Int_lt (msg : List Nat) : sha256Int msg < 2 ^ 256 := by
  have hpres := foldl_preserve sha256Compress
    (fun hs => hs.length = 8 ∧ ∀ v ∈ hs, v < 4294967296)
    (fun hs block _ => sha256Compress_shape hs block)
    (blocksAux 64 (padBE 64 8 msg).length (padBE 64 8 msg)) sha256IV
    ⟨rfl, by decide⟩
  have hlt := wordsToNat_lt hpres.2
  rw [hpres.1] at hlt
  calc sha256Int msg < 4294967296 ^ 8 := hlt
  _ = 2 ^ 256 := by norm_num

theorem sha1Int_lt (msg : List Nat) : sha1Int msg < 2 ^ 160 := by
  have hpres := foldl_preserve sha1Compress
    (fun hs => hs.length = 5 ∧ ∀ v ∈ hs, v < 4294967296)
    (fun hs block _ => sha1Compress_shape hs block)
    (blocksAux 64 (padBE 64 8 msg).length (padBE 64 8 msg)) sha1IV
    ⟨rfl, by decide⟩
  have hlt := wordsToNat_lt hpres.2
  rw [hpres.1] at hlt
  calc sha1Int msg < 4294967296 ^ 5 := hlt
  _ = 2 ^ 160 := by norm_num

theorem natToLE_length : ∀ (w n : Nat), (natToLE w n).length = w
  | 0, _ => rfl
  | w + 1, n => by simp [natToLE, natToLE_length w]

theorem natToLE_lt : ∀ (w n : Nat), ∀ b ∈ natToLE w n, b < 256
  | 0, _, b, hb => absurd hb (by simp [natToLE])
  | w + 1, n, b, hb => by
    simp only [natToLE, List.mem_cons] at hb
    rcases hb with rfl | hb
    · exact Nat.mod_lt _ (by norm_num)
    · exact natToLE_lt w _ b hb

theorem md5Int_lt (msg : List Nat) : md5Int msg < 2 ^ 128 := by
  simp only [md5Int]
  generalize ((blocksAux 64 (padLE msg).length (padLE msg)).foldl md5Compress md5IV) = r
  obtain ⟨a, b, c, d⟩ := r
  have hmem : ∀ v ∈ natToLE 4 a ++ natToLE 4 b ++ natToLE 4 c ++ natToLE 4 d, v < 256 := by
    intro v hv
    simp only [List.mem_append] at hv
    rcases hv with ((h | h) | h) | h <;> exact natToLE_lt 4 _ v h
  have hlen : (natToLE 4 a ++ natToLE 4 b ++ natToLE 4 c ++ natToLE 4 d).length = 16 := by
    simp [natToLE_length]
  have hlt : beToNat (natToLE 4 a ++ natToLE 4 b ++ natToLE 4 c ++ natToLE 4 d)
      < 256 ^ (natToLE 4 a ++ natToLE 4 b ++ natToLE 4 c ++ natToLE 4 d).length := by
    have := foldl_mul_add_lt 256 (natToLE 4 a ++ natToLE 4 b ++ natToLE 4 c ++ natToLE 4 d) 0 hmem
    simpa [beToNat] using this
  rw [hlen] at hlt
  calc beToNat (natToLE 4 a ++ natToLE 4 b ++ natToLE 4 c ++ natToLE 4 d) < 256 ^ 16 := hlt
  _ = 2 ^ 128 := by norm_num

theorem sha512Core_shape (iv msg : List Nat) (hiv : iv.length = 8 ∧ ∀ v ∈ iv, v < 18446744073709551616) :
    (sha512Core iv msg).length = 8 ∧ ∀ v ∈ sha512Core iv msg, v < 18446744073709551616 := by
  exact foldl_preserve sha512Compress
    (fun hs => hs.length = 8 ∧ ∀ v ∈ hs, v < 18446744073709551616)
    (fun hs block _ => sha512Compress_shape hs block)
    (blocksAux 128 (padBE 128 16 msg).length (padBE 128 16 msg)) iv hiv

theorem sha512Int_lt (msg : List Nat) : sha512Int msg < 2 ^ 512 := by
  obtain ⟨hl, hb⟩ := sha512Core_shape sha512IV msg ⟨rfl, by decide⟩
  have hlt := wordsToNat_lt hb
  rw [hl] at hlt
  calc sha512Int msg < 18446744073709551616 ^ 8 := hlt
  _ = 2 ^ 512 := by norm_num

theorem sha384Int_lt (msg : List Nat) : sha384Int msg < 2 ^ 384 := by
  obtain ⟨hl, hb⟩ := sha512Core_shape sha384IV msg ⟨rfl, by decide⟩
  have hb6 : ∀ v ∈ (sha512Core sha384IV msg).take 6, v < 18446744073709551616 :=
    fun v hv => hb v (List.mem_of_mem_take hv)
  have hlt := wordsToNat_lt hb6
  have hlen : ((sha512Core sha384IV msg).take 6).length = 6 := by
    rw [List.length_take, hl]
    decide
  rw [hlen] at hlt
  calc sha384Int msg < 18446744073709551616 ^ 6 := hlt
  _ = 2 ^ 384 := by norm_num

/-! ### Construction facts -/

theorem hash_functions_length : hash_functions.length = 5 := rfl

theorem bloomSize_pos (n : Nat) (p : ℝ) (hn : 0 < n) (hp0 : 0 < p) (hp1 : p < 1) :
    0 < bloomSize n p := by
  rw [bloomSize, Int.ceil_pos]
  have hlp : Real.log p < 0 := Real.log_neg hp0 hp1
  have hl2 : 0 < Real.log 2 := Real.log_pos (by norm_num)
  have hnr : (0 : ℝ) < n := by exact_mod_cast hn
  have hmul : (n : ℝ) * Real.log p < 0 := mul_neg_of_pos_of_neg hnr hlp
  have hdiv : (n : ℝ) * Real.log p / (Real.log 2) ^ 2 < 0 :=
    div_neg_of_neg_of_pos hmul (by positivity)
  linarith

theorem bloomNhash_bounds (n : Nat) (p : ℝ) : 1 ≤ bloomNhash n p ∧ bloomNhash n p ≤ 5 := by
  rw [bloomNhash, hash_functions_length]
  constructor
  · exact le_max_left _ _
  · apply max_le
    · norm_num
    · calc min ⌈((bloomSize n p : ℤ) : ℝ) / (n : ℝ) * Real.log 2⌉ ((5 : ℕ) : ℤ)
          ≤ ((5 : ℕ) : ℤ) := min_le_right _ _
      _ = 5 := by norm_num

/-! ### Re-adding an already-present item -/

/-- Setting bits that are already set leaves the byte array untouched
and raises nothing. -/
theorem setBitLoop_noop : ∀ (idxs fd : List Nat),
    (∀ index ∈ idxs, index / 8 < fd.length) →
    (∀ b ∈ fd, b < 256) →
    (∀ index ∈ idxs, getBit fd index = true) →
    setBitLoop fd idxs = (fd, true)
  | [], _, _, _, _ => rfl
  | index :: rest, fd, hin, hby, hset => by
    have hlen : index / 8 < fd.length := hin index (List.mem_cons_self _ _)
    have hbit : (fd.getD (index / 8) 0).testBit (index % 8) = true :=
      hset index (List.mem_cons_self _ _)
    have hor : (fd.getD (index / 8) 0) ||| (1 <<< (index % 8)) = fd.getD (index / 8) 0 :=
      or_shift_eq_self hbit
    have hv : (fd.getD (index / 8) 0) ||| (1 <<< (index % 8)) < 256 :=
      or_shift_lt (hby _ (getD_mem fd _ hlen)) (Nat.mod_lt _ (by norm_num))
    have hsame : fd.set (index / 8) ((fd.getD (index / 8) 0) ||| (1 <<< (index % 8))) = fd := by
      rw [hor]
      exact set_getD_self fd _
    have hstep : setBitLoop fd (index :: rest)
        = setBitLoop (fd.set (index / 8) ((fd.getD (index / 8) 0) ||| (1 <<< (index % 8)))) rest := by
      simp only [setBitLoop]
      rw [if_pos hlen, if_pos hv]
    rw [hstep, hsame]
    exact setBitLoop_noop rest fd (fun j hj => hin j (List.mem_cons_of_mem _ hj)) hby
      (fun j hj => hset j (List.mem_cons_of_mem _ hj))

/-! ### Monotonicity of counting adds across a sequence -/

theorem cbfAddAll_pres : ∀ (items : List (List Nat)) (cbf : CountingBloomFilter), wfC cbf →
    wfC (cbf.addAll items).1 ∧
    (cbf.addAll items).1.size = cbf.size ∧ (cbf.addAll items).1.nhash = cbf.nhash ∧
    (∀ i, cbf.filter_data.getD i 0 ≤ (cbf.addAll items).1.filter_data.getD i 0)
  | [], _, h => ⟨h, rfl, rfl, fun _ => Nat.le_refl _⟩
  | x :: xs, cbf, h => by
    have hwf1 : wfC (cbf.add x).1 := by
      refine ⟨h.1, ?_, ?_⟩
      · show (incrLoop cbf.filter_data (indicesOf cbf.size cbf.nhash x)).1.length = cbf.size
        rw [(incrLoop_mono (indicesOf cbf.size cbf.nhash x) cbf.filter_data 0).2, h.2.1]
      · exact incrLoop_bounds _ _ h.2.2
    have hmono1 : ∀ i, cbf.filter_data.getD i 0 ≤ (cbf.add x).1.filter_data.getD i 0 :=
      fun i => (incrLoop_mono (indicesOf cbf.size cbf.nhash x) cbf.filter_data i).1
    by_cases hok : (cbf.add x).2 = true
    · have hstep : cbf.addAll (x :: xs) = (cbf.add x).1.addAll xs := by
        simp only [CountingBloomFilter.addAll]
        rw [if_pos hok]
      obtain ⟨ih1, ih2, ih3, ih4⟩ := cbfAddAll_pres xs (cbf.add x).1 hwf1
      exact ⟨by rw [hstep]; exact ih1, by rw [hstep, ih2]; rfl, by rw [hstep, ih3]; rfl,
        fun i => by rw [hstep]; exact Nat.le_trans (hmono1 i) (ih4 i)⟩
    · have hstep : cbf.addAll (x :: xs) = ((cbf.add x).1, false) := by
        simp only [CountingBloomFilter.addAll]
        rw [if_neg hok]
      exact ⟨by rw [hstep]; exact hwf1, by rw [hstep]; rfl, by rw [hstep]; rfl,
        fun i => by rw [hstep]; exact hmono1 i⟩

/-! ### Zero-initialised storage -/

theorem replicate_getD : ∀ (n i : Nat), (List.replicate n (0 : Nat)).getD i 0 = 0
  | 0, _ => rfl
  | _ + 1, 0 => rfl
  | n + 1, i + 1 => replicate_getD n i

theorem replicate_getBit (n i : Nat) : getBit (List.replicate n (0 : Nat)) i = false := by
  unfold getBit
  rw [replicate_getD]
  exact Nat.zero_testBit _

/-! ### Concrete construction: `(expected_nr_items, max_fpr) = (2, 0.5)` -/

theorem bloomSize_two_half : bloomSize 2 (1 / 2 : ℝ) = 3 := by
  rw [bloomSize, Int.ceil_eq_iff]
  have hl2 : Real.log (1 / 2 : ℝ) = -Real.log 2 := by
    rw [show (1 / 2 : ℝ) = 2⁻¹ by norm_num, Real.log_inv]
  have hgt := Real.log_two_gt_d9
  have hlt := Real.log_two_lt_d9
  have hpos : 0 < Real.log 2 := by linarith
  have key : -(((2 : Nat) : ℝ) * Real.log (1 / 2 : ℝ) / (Real.log 2) ^ 2)
      = 2 / Real.log 2 := by
    rw [hl2]
    push_cast
    field_simp
    ring
  rw [key]
  push_cast
  constructor
  · rw [lt_div_iff₀ hpos]
    nlinarith
  · rw [div_le_iff₀ hpos]
    nlinarith

theorem bloomNhash_two_half : bloomNhash 2 (1 / 2 : ℝ) = 2 := by
  rw [bloomNhash, bloomSize_two_half, hash_functions_length]
  have hgt := Real.log_two_gt_d9
  have hlt := Real.log_two_lt_d9
  have hceil : ⌈(((3 : ℤ) : ℝ)) / ((2 : Nat) : ℝ) * Real.log 2⌉ = 2 := by
    rw [Int.ceil_eq_iff]
    push_cast
    constructor
    · nlinarith
    · nlinarith
  rw [hceil]
  norm_num

/-- The state `CountingBloomFilter.mk 3 2 [0, 0, 0]` is exactly the
filter built by `CountingBloomFilter(2, 0.5)`. -/
theorem mkCounting_two_half :
    mkCountingBloomFilter 2 (1 / 2 : ℝ) = CountingBloomFilter.mk 3 2 [0, 0, 0] := by
  rw [mkCountingBloomFilter, bloomSize_two_half, bloomNhash_two_half]
  rfl

/-- The state `BloomFilter.mk 3 2 [0]` is exactly the filter built by
`BloomFilter(2, 0.5)`. -/
theorem mkBloom_two_half :
    mkBloomFilter 2 (1 / 2 : ℝ) = BloomFilter.mk 3 2 [0] := by
  rw [mkBloomFilter, bloomSize_two_half, bloomNhash_two_half]
  rfl

/-! ### Query characterisation helpers -/

theorem all_indices_iff {size nhash : Nat} {item : List Nat} (f : Nat → Bool) :
    ((indicesOf size nhash item).all f = true) ↔ ∀ i < nhash, f (bfHash size item i) = true := by
  rw [List.all_eq_true]
  constructor
  · intro h i hi
    exact h _ (mem_indicesOf_iff.mpr ⟨i, hi, rfl⟩)
  · intro h index hidx
    obtain ⟨i, hi, rfl⟩ := mem_indicesOf_iff.mp hidx
    exact h i hi

theorem all_indices_false_iff {size nhash : Nat} {item : List Nat} (f : Nat → Bool) :
    ((indicesOf size nhash item).all f = false) ↔ ∃ i < nhash, f (bfHash size item i) = false := by
  constructor
  · intro h
    by_contra hc
    push_neg at hc
    have hall : (indicesOf size nhash item).all f = true := by
      rw [all_indices_iff]
      intro i hi
      rcases Bool.eq_false_or_eq_true (f (bfHash size item i)) with hf | hf
      · exact hf
      · exact absurd hf (hc i hi)
    rw [hall] at h
    exact Bool.noConfusion h
  · rintro ⟨i, hi, hf⟩
    rcases Bool.eq_false_or_eq_true ((indicesOf size nhash item).all f) with ha | ha
    · have := (all_indices_iff f).mp ha i hi
      rw [hf] at this
      exact Bool.noConfusion this
    · exact ha

/-! ### The claims -/

/-- C1 (code bug).  The claim: `delete` is all-or-nothing — it either
aborts with the state unchanged (some addressed counter is zero) or
decrements exactly `hash_count` counters, so the counter sum drops by
exactly `hash_count` or exactly `0`; it never partially decrements.
The code violates this.  Failing input: the filter built by
`CountingBloomFilter(2, 0.5)` (`size = 3`, `nhash = 2`), after
`add("c")` (UTF-8 `[99]`, slots `[1, 2]`, state `[0, 1, 1]`), calling
`delete("a")` (UTF-8 `[97]`): both seeds of `"a"` hash to slot `1`, the
first pass reads the positive counter `1` twice and commits, the second
pass decrements slot `1` to `0` and then raises `ValueError` storing
`-1`.  The state is left partially decremented at `[0, 0, 1]`: the sum
drops from `2` to `1`, which is neither `0` nor `hash_count = 2`, and
the repository's own `__main__` assertion
`sum_before - sum_after == nhash` would fail here.  (`.2 = false`
models the raise.) -/
theorem C1_delete_partial_decrement_bug :
    mkCountingBloomFilter 2 (1 / 2 : ℝ) = CountingBloomFilter.mk 3 2 [0, 0, 0] ∧
    indicesOf 3 2 [97] = [1, 1] ∧
    ((CountingBloomFilter.mk 3 2 [0, 0, 0]).add [99]).2 = true ∧
    ((CountingBloomFilter.mk 3 2 [0, 0, 0]).add [99]).1.filter_data = [0, 1, 1] ∧
    (((CountingBloomFilter.mk 3 2 [0, 0, 0]).add [99]).1.delete [97]).2 = false ∧
    (((CountingBloomFilter.mk 3 2 [0, 0, 0]).add [99]).1.delete [97]).1.filter_data = [0, 0, 1] ∧
    ((CountingBloomFilter.mk 3 2 [0, 0, 0]).add [99]).1.filter_data.sum = 2 ∧
    (((CountingBloomFilter.mk 3 2 [0, 0, 0]).add [99]).1.delete [97]).1.filter_data.sum = 1 :=
  ⟨mkCounting_two_half, by decide⟩

/-- C2 (confirmed).  For the bitset filter, starting from a freshly
constructed state (zeroed byte array of `(size + 7) / 8` bytes) and any
finite sequence of `add` calls, every added item queries `true`
afterwards: `query` returning `false` certifies the item was never
added.  The whole run also raises no exception. -/
theorem C2_no_false_negatives (size nhash : Nat) (items : List (List Nat)) (x : List Nat)
    (hs : 0 < size) (hx : x ∈ items) :
    ((BloomFilter.mk size nhash (List.replicate ((size + 7) / 8) 0)).addAll items).2 = true ∧
    ((BloomFilter.mk size nhash (List.replicate ((size + 7) / 8) 0)).addAll items).1.query x
      = some true := by
  have hwf : wfB (BloomFilter.mk size nhash (List.replicate ((size + 7) / 8) 0)) := by
    refine ⟨hs, by simp, ?_⟩
    intro b hb
    rw [List.eq_of_mem_replicate hb]
    norm_num
  obtain ⟨h1, h2, h3, h4, h5, h6⟩ := bfAddAll_spec items _ hwf
  refine ⟨h1, ?_⟩
  have hq := bfQuery_spec _ x h4
  rw [h2, h3] at hq
  rw [hq]
  have hall : ((indicesOf size nhash x).all
      (fun index => getBit ((BloomFilter.mk size nhash
        (List.replicate ((size + 7) / 8) 0)).addAll items).1.filter_data index)) = true := by
    rw [List.all_eq_true]
    intro index hidx
    exact h6 x hx index hidx
  rw [hall]

theorem C2_witness :
    0 < 3 ∧ [97] ∈ [[97]] ∧
    ((BloomFilter.mk 3 2 (List.replicate ((3 + 7) / 8) 0)).addAll [[97]]).1.query [97]
      = some true :=
  ⟨by decide, by decide, (C2_no_false_negatives 3 2 [[97]] [97] (by decide) (by decide)).2⟩

/-- C3 (confirmed).  For both filters, `query` returns `false` iff some
addressed slot is unset (bit clear / counter zero) and `true` iff all
addressed slots are set; the early `return False` on the first unset
slot does not change the result, which depends only on the addressed
slots' contents. -/
theorem C3_query_iff (bf : BloomFilter) (cbf : CountingBloomFilter) (item : List Nat)
    (hb : wfB bf) (hc : wfC cbf) :
    (bf.query item = some false ↔
      ∃ i < bf.nhash, getBit bf.filter_data (bfHash bf.size item i) = false) ∧
    (bf.query item = some true ↔
      ∀ i < bf.nhash, getBit bf.filter_data (bfHash bf.size item i) = true) ∧
    (cbf.query item = some false ↔
      ∃ i < cbf.nhash, cbf.filter_data.getD (bfHash cbf.size item i) 0 = 0) ∧
    (cbf.query item = some true ↔
      ∀ i < cbf.nhash, 0 < cbf.filter_data.getD (bfHash cbf.size item i) 0) := by
  have hq := bfQuery_spec bf item hb
  have hcq := cbfQuery_spec cbf item hc
  rw [hq, hcq]
  simp only [Option.some.injEq]
  refine ⟨?_, ?_, ?_, ?_⟩
  · rw [all_indices_false_iff]
  · rw [all_indices_iff]
  · rw [all_indices_false_iff]
    constructor
    · rintro ⟨i, hi, hf⟩
      refine ⟨i, hi, ?_⟩
      have := of_decide_eq_false hf
      omega
    · rintro ⟨i, hi, hf⟩
      refine ⟨i, hi, ?_⟩
      rw [decide_eq_false_iff_not]
      omega
  · rw [all_indices_iff]
    constructor
    · intro h i hi
      exact of_decide_eq_true (h i hi)
    · intro h i hi
      exact decide_eq_true (h i hi)

theorem C3_witness :
    wfB (BloomFilter.mk 3 2 [0]) ∧ wfC (CountingBloomFilter.mk 3 2 [0, 0, 0]) ∧
    ((BloomFilter.mk 3 2 [0]).query [97] = some true ↔
      ∀ i < 2, getBit [0] (bfHash 3 [97] i) = true) :=
  ⟨by decide, by decide,
    (C3_query_iff (BloomFilter.mk 3 2 [0]) (CountingBloomFilter.mk 3 2 [0, 0, 0]) [97]
      (by decide) (by decide)).2.1⟩

/-- C4 (confirmed).  At construction from `expected_nr_items > 0` and
`max_fpr` in `(0, 1)` (idealising Python floats over the reals):
`size` is `ceil(-(n * ln p) / (ln 2)^2)`, `nhash` is
`ceil(size / n * ln 2)` clamped to `[1, len(hash_functions)] = [1, 5]`;
hence `size ≥ 1` and `1 ≤ nhash ≤ 5`.  Both fields are fixed for the
lifetime of the instance: no operation of either class changes them
(the final two conjuncts, which hold for arbitrary states). -/
theorem C4_construction_sizing (n : Nat) (p : ℝ) (hn : 0 < n) (hp0 : 0 < p) (hp1 : p < 1) :
    ((mkBloomFilter n p).size : ℤ) = ⌈-((n : ℝ) * Real.log p) / (Real.log 2) ^ 2⌉ ∧
    ((mkBloomFilter n p).nhash : ℤ)
      = max 1 (min ⌈((mkBloomFilter n p).size : ℝ) / (n : ℝ) * Real.log 2⌉ 5) ∧
    1 ≤ (mkBloomFilter n p).size ∧
    1 ≤ (mkBloomFilter n p).nhash ∧ (mkBloomFilter n p).nhash ≤ 5 ∧
    mkCountingBloomFilter n p =
      CountingBloomFilter.mk (mkBloomFilter n p).size (mkBloomFilter n p).nhash
        (List.replicate (mkBloomFilter n p).size 0) ∧
    (∀ (bf : BloomFilter) (item : List Nat),
      (bf.add item).1.size = bf.size ∧ (bf.add item).1.nhash = bf.nhash) ∧
    (∀ (cbf : CountingBloomFilter) (item : List Nat),
      (cbf.add item).1.size = cbf.size ∧ (cbf.add item).1.nhash = cbf.nhash ∧
      (cbf.delete item).1.size = cbf.size ∧ (cbf.delete item).1.nhash = cbf.nhash) := by
  have hpos := bloomSize_pos n p hn hp0 hp1
  have hcast : ((bloomSize n p).toNat : ℤ) = bloomSize n p :=
    Int.toNat_of_nonneg (le_of_lt hpos)
  have hb := bloomNhash_bounds n p
  have hncast : ((bloomNhash n p).toNat : ℤ) = bloomNhash n p :=
    Int.toNat_of_nonneg (by omega)
  refine ⟨?_, ?_, ?_, ?_, ?_, ?_, ?_, ?_⟩
  · show ((bloomSize n p).toNat : ℤ) = _
    rw [hcast, bloomSize]
    congr 1
    ring
  · show ((bloomNhash n p).toNat : ℤ) = _
    rw [hncast, bloomNhash, hash_functions_length]
    have hreal : (((bloomSize n p).toNat : ℕ) : ℝ) = ((bloomSize n p : ℤ) : ℝ) := by
      exact_mod_cast congrArg (fun z : ℤ => (z : ℝ)) hcast
    rw [show ((mkBloomFilter n p).size : ℝ) = (((bloomSize n p).toNat : ℕ) : ℝ) from rfl, hreal]
    norm_num
  · show 1 ≤ (bloomSize n p).toNat
    omega
  · show 1 ≤ (bloomNhash n p).toNat
    omega
  · show (bloomNhash n p).toNat ≤ 5
    omega
  · rfl
  · intro bf item
    exact ⟨rfl, rfl⟩
  · intro cbf item
    refine ⟨rfl, rfl, ?_, ?_⟩ <;>
    · simp only [CountingBloomFilter.delete]
      rcases hdc : deleteCheck cbf.filter_data (indicesOf cbf.size cbf.nhash item) with _ | _ | l
      · rfl
      · rfl
      · rfl

set_option maxHeartbeats 1000000 in
theorem C4_witness :
    0 < 2 ∧ (0 : ℝ) < 1 / 2 ∧ (1 / 2 : ℝ) < 1 ∧
    1 ≤ (mkBloomFilter 2 (1 / 2 : ℝ)).size ∧
    1 ≤ (mkBloomFilter 2 (1 / 2 : ℝ)).nhash ∧ (mkBloomFilter 2 (1 / 2 : ℝ)).nhash ≤ 5 := by
  have h := C4_construction_sizing 2 (1 / 2) (by norm_num) (by norm_num) (by norm_num)
  exact ⟨by norm_num, by norm_num, by norm_num, h.2.2.1, h.2.2.2.1, h.2.2.2.2.1⟩

/-- C5 (confirmed).  `_hash(item, seed)` is the full digest of the item
under the seed-th function of the fixed ordered `hash_functions` list,
interpreted as an unsigned integer and reduced modulo `size`; the result
lies in `[0, size)` and the same `(item, seed)` pair always yields the
same index (the model is a pure function).  The list holds exactly five
digests, whose widths are 256, 160, 128, 384 and 512 bits in that
order. -/
theorem C5_slot_index (size seed : Nat) (item : List Nat) (h0 : 0 < size) (_hseed : seed < 5) :
    bfHash size item seed = hashDigest seed item % size ∧
    bfHash size item seed < size ∧
    (∀ (item2 : List Nat) (seed2 : Nat), item2 = item → seed2 = seed →
      bfHash size item2 seed2 = bfHash size item seed) ∧
    hash_functions.length = 5 ∧
    hashDigest 0 item < 2 ^ 256 ∧
    hashDigest 1 item < 2 ^ 160 ∧
    hashDigest 2 item < 2 ^ 128 ∧
    hashDigest 3 item < 2 ^ 384 ∧
    hashDigest 4 item < 2 ^ 512 := by
  refine ⟨rfl, Nat.mod_lt _ h0, fun i2 s2 h1 h2 => by rw [h1, h2], rfl, ?_, ?_, ?_, ?_, ?_⟩ <;>
    simp only [hashDigest, hash_functions, List.getD_cons_zero, List.getD_cons_succ]
  · exact sha256Int_lt item
  · exact sha1Int_lt item
  · exact md5Int_lt item
  · exact sha384Int_lt item
  · exact sha512Int_lt item

theorem C5_witness :
    0 < 3 ∧ 1 < 5 ∧ bfHash 3 [97] 1 < 3 :=
  ⟨by decide, by decide, (C5_slot_index 3 1 [97] (by decide) (by decide)).2.1⟩

/-- C6 (corrected).  The claim says a counting `add` never raises, the
counter wrapping or saturating at its maximum.  In fact incrementing a
counter that holds 255 raises `ValueError` (`bytearray` rejects 256):
at the state with the single counter at 255, `add("a")` raises
(`.2 = false`) and the counter is left at 255 — no wrap to 0, no
completed saturation write. -/
theorem C6_counterexample :
    ((CountingBloomFilter.mk 1 1 [255]).add [97]).2 = false ∧
    ((CountingBloomFilter.mk 1 1 [255]).add [97]).1.filter_data = [255] := by
  decide

/-- C6 amended: `add` increments the counter at `slot_index(item, i)` by
one for each seed `i` and returns normally, provided every slot has
headroom — its counter plus the number of seeds addressing it stays
at most 255.  Outside that headroom the increment raises `ValueError`
instead of wrapping or saturating (`C6_counterexample`). -/
theorem C6_amended_add_increments (cbf : CountingBloomFilter) (item : List Nat) (h : wfC cbf)
    (hhead : ∀ i, i < cbf.size →
      cbf.filter_data.getD i 0 + (indicesOf cbf.size cbf.nhash item).count i ≤ 255) :
    (cbf.add item).2 = true ∧
    (∀ i, (cbf.add item).1.filter_data.getD i 0
      = cbf.filter_data.getD i 0 + (indicesOf cbf.size cbf.nhash item).count i) :=
  ⟨(cbfAdd_ok_spec cbf item h hhead).1, (cbfAdd_ok_spec cbf item h hhead).2.2.2.2⟩

theorem C6_amended_witness :
    wfC (CountingBloomFilter.mk 1 1 [0]) ∧
    ((CountingBloomFilter.mk 1 1 [0]).add [97]).2 = true :=
  ⟨by decide, (C6_amended_add_increments (CountingBloomFilter.mk 1 1 [0]) [97]
    (by decide) (by decide)).1⟩

/-- C7 (corrected).  The claim: deleting `x` never flips `query(y)` from
`true` to `false` for a still-present `y ≠ x` unless `x` and `y` share
all `hash_count` slots.  Counterexample on the `(size, nhash) = (3, 2)`
filter: add `"c"` (`[99]`, slots `[1, 2]`) and `"l"` (`[108]`, slots
`[0, 0]`), giving counters `[2, 1, 1]`; `"c"` is present and queries
`true`.  Now delete `"g"` (`[103]`, slots `[0, 1]`) — an item never
added, sharing only slot `1` with `"c"`, not all slots.  The delete
returns normally and afterwards `query("c")` is `false`. -/
theorem C7_counterexample :
    indicesOf 3 2 [103] = [0, 1] ∧
    indicesOf 3 2 [99] = [1, 2] ∧
    ((CountingBloomFilter.mk 3 2 [0, 0, 0]).addAll [[99], [108]]).2 = true ∧
    ((CountingBloomFilter.mk 3 2 [0, 0, 0]).addAll [[99], [108]]).1.filter_data = [2, 1, 1] ∧
    ((CountingBloomFilter.mk 3 2 [0, 0, 0]).addAll [[99], [108]]).1.query [99] = some true ∧
    (((CountingBloomFilter.mk 3 2 [0, 0, 0]).addAll [[99], [108]]).1.delete [103]).2 = true ∧
    (((CountingBloomFilter.mk 3 2 [0, 0, 0]).addAll [[99], [108]]).1.delete [103]).1.query [99]
      = some false := by
  decide

/-- C7 amended: delete non-interference holds when `x` is itself still
present alongside `y` — precisely, when every slot's counter is at
least the number of times the seeds of `x` and of `y` together address
it (which is what the counters guarantee while both items' additions
are uncancelled).  Then `delete(x)` returns normally and `query(y)`
stays `true`, even if `x` and `y` share slots. -/
theorem C7_amended_delete_noninterference (cbf : CountingBloomFilter) (x y : List Nat)
    (h : wfC cbf)
    (hcov : ∀ i, i < cbf.size →
      (indicesOf cbf.size cbf.nhash x).count i + (indicesOf cbf.size cbf.nhash y).count i
        ≤ cbf.filter_data.getD i 0) :
    (cbf.delete x).2 = true ∧ (cbf.delete x).1.query y = some true := by
  have hcnt : ∀ i, (indicesOf cbf.size cbf.nhash x).count i ≤ cbf.filter_data.getD i 0 := by
    intro i
    by_cases hi : i < cbf.size
    · have := hcov i hi
      omega
    · have hnm : i ∉ indicesOf cbf.size cbf.nhash x :=
        fun hm => hi (indicesOf_lt h.1 _ _ i hm)
      rw [count_eq_zero_of_not_mem hnm]
      exact Nat.zero_le _
  obtain ⟨hok, hsz, hnh, hwf, heff, _⟩ := cbfDelete_ok cbf x h hcnt
  refine ⟨hok, ?_⟩
  have hq := cbfQuery_spec (cbf.delete x).1 y hwf
  rw [hsz, hnh] at hq
  rw [hq]
  have hall : ((indicesOf cbf.size cbf.nhash y).all
      fun index => decide (0 < (cbf.delete x).1.filter_data.getD index 0)) = true := by
    rw [List.all_eq_true]
    intro index hidx
    have hlt : index < cbf.size := indicesOf_lt h.1 _ _ index hidx
    have hy : 0 < (indicesOf cbf.size cbf.nhash y).count index := List.count_pos_iff.mpr hidx
    have hcv := hcov index hlt
    have he := heff index
    simp only [decide_eq_true_eq]
    omega
  rw [hall]

theorem C7_amended_witness :
    wfC (CountingBloomFilter.mk 3 2 [2, 2, 2]) ∧
    ((CountingBloomFilter.mk 3 2 [2, 2, 2]).delete [103]).2 = true ∧
    ((CountingBloomFilter.mk 3 2 [2, 2, 2]).delete [103]).1.query [99] = some true :=
  ⟨by decide,
    (C7_amended_delete_noninterference (CountingBloomFilter.mk 3 2 [2, 2, 2]) [103] [99]
      (by decide) (by decide)).1,
    (C7_amended_delete_noninterference (CountingBloomFilter.mk 3 2 [2, 2, 2]) [103] [99]
      (by decide) (by decide)).2⟩

/-- C8 (confirmed).  On a well-formed bitset filter (byte array of
`(size + 7) / 8` bytes, i.e. `ceil(size / 8)`), `add` and `query` are
total: every computed byte index `index / 8` with `index < size` lies
inside the array, no access raises, and `add` completes all its
stores. -/
theorem C8_bitset_total (bf : BloomFilter) (item : List Nat) (h : wfB bf) :
    (bf.add item).2 = true ∧
    (bf.query item).isSome = true ∧
    bf.filter_data.length = (bf.size + 7) / 8 ∧
    (∀ index ∈ indicesOf bf.size bf.nhash item, index / 8 < bf.filter_data.length) := by
  refine ⟨(bfAdd_spec bf item h).1, ?_, h.2.1, ?_⟩
  · rw [bfQuery_spec bf item h]
    rfl
  · intro index hidx
    rw [h.2.1]
    exact idx_div_lt h.1 (indicesOf_lt h.1 _ _ index hidx)

theorem C8_witness :
    wfB (BloomFilter.mk 3 2 [0]) ∧ ((BloomFilter.mk 3 2 [0]).add [97]).2 = true :=
  ⟨by decide, (C8_bitset_total (BloomFilter.mk 3 2 [0]) [97] (by decide)).1⟩

/-- C9 (confirmed).  `add` is idempotent in its observable effect: for
the bitset filter a second consecutive `add(x)` leaves the byte array
bit-for-bit identical and raises nothing, and `query(x)` is `true`
after one or two adds; for the counting filter, once an `add(x)` has
completed, any further sequence of `add(x)` calls — even ones that
overflow and raise — never makes `query(x)` return `false`, because
counters never decrease under `add`. -/
theorem C9_idempotent_add (bf : BloomFilter) (cbf : CountingBloomFilter) (x : List Nat)
    (hb : wfB bf) (hc : wfC cbf) :
    ((bf.add x).1.add x).1.filter_data = (bf.add x).1.filter_data ∧
    ((bf.add x).1.add x).2 = true ∧
    (bf.add x).1.query x = some true ∧
    ((bf.add x).1.add x).1.query x = some true ∧
    ((cbf.add x).2 = true →
      ∀ k : Nat, ((cbf.add x).1.addAll (List.replicate k x)).1.query x = some true) := by
  obtain ⟨hok1, hsz1, hnh1, hwf1, heff1⟩ := bfAdd_spec bf x hb
  have hred1 : indicesOf (bf.add x).1.size (bf.add x).1.nhash x
      = indicesOf bf.size bf.nhash x := rfl
  have hbits : ∀ index ∈ indicesOf bf.size bf.nhash x,
      getBit (bf.add x).1.filter_data index = true := by
    intro index hidx
    rw [heff1 index]
    simp [hidx]
  have hin2 : ∀ index ∈ indicesOf (bf.add x).1.size (bf.add x).1.nhash x,
      index / 8 < (bf.add x).1.filter_data.length := by
    intro index hidx
    rw [hwf1.2.1]
    exact idx_div_lt hwf1.1 (indicesOf_lt hwf1.1 _ _ index hidx)
  have hset2 : ∀ index ∈ indicesOf (bf.add x).1.size (bf.add x).1.nhash x,
      getBit (bf.add x).1.filter_data index = true := by
    intro index hidx
    rw [hred1] at hidx
    exact hbits index hidx
  have hnoop := setBitLoop_noop _ _ hin2 hwf1.2.2 hset2
  have hfd2 : ((bf.add x).1.add x).1.filter_data = (bf.add x).1.filter_data := by
    show (setBitLoop (bf.add x).1.filter_data
      (indicesOf (bf.add x).1.size (bf.add x).1.nhash x)).1 = _
    rw [hnoop]
  have hok2 : ((bf.add x).1.add x).2 = true := by
    show (setBitLoop (bf.add x).1.filter_data
      (indicesOf (bf.add x).1.size (bf.add x).1.nhash x)).2 = true
    rw [hnoop]
  have hq1 : (bf.add x).1.query x = some true := by
    rw [bfQuery_spec (bf.add x).1 x hwf1, hred1]
    have hall : ((indicesOf bf.size bf.nhash x).all
        fun index => getBit (bf.add x).1.filter_data index) = true := by
      rw [List.all_eq_true]
      intro index hidx
      exact hbits index hidx
    rw [hall]
  have hwf2 : wfB ((bf.add x).1.add x).1 := (bfAdd_spec (bf.add x).1 x hwf1).2.2.2.1
  have hq2 : ((bf.add x).1.add x).1.query x = some true := by
    rw [bfQuery_spec ((bf.add x).1.add x).1 x hwf2]
    have hredd : indicesOf ((bf.add x).1.add x).1.size ((bf.add x).1.add x).1.nhash x
        = indicesOf bf.size bf.nhash x := rfl
    rw [hredd]
    have hall : ((indicesOf bf.size bf.nhash x).all
        fun index => getBit ((bf.add x).1.add x).1.filter_data index) = true := by
      rw [List.all_eq_true]
      intro index hidx
      rw [hfd2]
      exact hbits index hidx
    rw [hall]
  refine ⟨hfd2, hok2, hq1, hq2, ?_⟩
  intro hcok k
  obtain ⟨hclen, hceff⟩ := incrLoop_effect_of_ok (indicesOf cbf.size cbf.nhash x)
    cbf.filter_data hcok
  have hwfc1 : wfC (cbf.add x).1 := by
    refine ⟨hc.1, ?_, incrLoop_bounds _ _ hc.2.2⟩
    show (incrLoop cbf.filter_data (indicesOf cbf.size cbf.nhash x)).1.length = cbf.size
    rw [hclen, hc.2.1]
  obtain ⟨hwfk, hszk, hnhk, hmonk⟩ := cbfAddAll_pres (List.replicate k x) (cbf.add x).1 hwfc1
  have hq := cbfQuery_spec _ x hwfk
  rw [hszk, hnhk] at hq
  have hredc : indicesOf (cbf.add x).1.size (cbf.add x).1.nhash x
      = indicesOf cbf.size cbf.nhash x := rfl
  rw [hredc] at hq
  rw [hq]
  have hall : ((indicesOf cbf.size cbf.nhash x).all fun index =>
      decide (0 < ((cbf.add x).1.addAll (List.replicate k x)).1.filter_data.getD index 0))
      = true := by
    rw [List.all_eq_true]
    intro index hidx
    have h1 : 0 < (indicesOf cbf.size cbf.nhash x).count index := List.count_pos_iff.mpr hidx
    have h2 := hceff index
    have h3 := hmonk index
    simp only [decide_eq_true_eq]
    have h4 : (cbf.add x).1.filter_data.getD index 0
        = cbf.filter_data.getD index 0 + (indicesOf cbf.size cbf.nhash x).count index := h2
    omega
  rw [hall]

theorem C9_witness :
    wfB (BloomFilter.mk 3 2 [0]) ∧ wfC (CountingBloomFilter.mk 3 2 [0, 0, 0]) ∧
    (((BloomFilter.mk 3 2 [0]).add [97]).1.add [97]).1.filter_data
      = ((BloomFilter.mk 3 2 [0]).add [97]).1.filter_data :=
  ⟨by decide, by decide,
    (C9_idempotent_add (BloomFilter.mk 3 2 [0]) (CountingBloomFilter.mk 3 2 [0, 0, 0]) [97]
      (by decide) (by decide)).1⟩

/-- C10 (confirmed).  A bitset filter and a counting filter with the
same `(size, nhash)` sizing (as produced by the two constructors from
equal `(expected_nr_items, max_fpr)`), fed the same sequence of adds
from their freshly constructed states, answer every query identically,
provided the counting run raises no counter overflow; the linking
invariant is that bit `i` is set iff counter `i` is strictly
positive. -/
theorem C10_refinement (size nhash : Nat) (items : List (List Nat)) (y : List Nat)
    (hs : 0 < size)
    (hok : ((CountingBloomFilter.mk size nhash (List.replicate size 0)).addAll items).2
      = true) :
    ((BloomFilter.mk size nhash (List.replicate ((size + 7) / 8) 0)).addAll items).1.query y
      = ((CountingBloomFilter.mk size nhash (List.replicate size 0)).addAll items).1.query y ∧
    (∀ i, i < size →
      getBit ((BloomFilter.mk size nhash
          (List.replicate ((size + 7) / 8) 0)).addAll items).1.filter_data i
        = decide (0 < ((CountingBloomFilter.mk size nhash
            (List.replicate size 0)).addAll items).1.filter_data.getD i 0)) := by
  have hwb : wfB (BloomFilter.mk size nhash (List.replicate ((size + 7) / 8) 0)) := by
    refine ⟨hs, by simp, ?_⟩
    intro b hb
    rw [List.eq_of_mem_replicate hb]
    norm_num
  have hwc : wfC (CountingBloomFilter.mk size nhash (List.replicate size 0)) := by
    refine ⟨hs, by simp, ?_⟩
    intro b hb
    rw [List.eq_of_mem_replicate hb]
    norm_num
  have hlink0 : ∀ i, i < (CountingBloomFilter.mk size nhash (List.replicate size 0)).size →
      getBit (BloomFilter.mk size nhash
          (List.replicate ((size + 7) / 8) 0)).filter_data i
        = decide (0 < (CountingBloomFilter.mk size nhash
            (List.replicate size 0)).filter_data.getD i 0) := by
    intro i _
    show getBit (List.replicate ((size + 7) / 8) 0) i
      = decide (0 < (List.replicate size (0 : Nat)).getD i 0)
    rw [replicate_getBit, replicate_getD]
    simp
  obtain ⟨hwbf, hwcf, hbsz, hcsz, hbnh, hcnh, hlinkf⟩ :=
    addAll_link items _ _ hwb hwc rfl rfl hlink0 hok
  constructor
  · have hbq := bfQuery_spec _ y hwbf
    have hcq := cbfQuery_spec _ y hwcf
    rw [hbsz, hbnh] at hbq
    rw [hcsz, hcnh] at hcq
    have hredb : indicesOf (BloomFilter.mk size nhash
        (List.replicate ((size + 7) / 8) 0)).size (BloomFilter.mk size nhash
        (List.replicate ((size + 7) / 8) 0)).nhash y = indicesOf size nhash y := rfl
    have hredc : indicesOf (CountingBloomFilter.mk size nhash
        (List.replicate size 0)).size (CountingBloomFilter.mk size nhash
        (List.replicate size 0)).nhash y = indicesOf size nhash y := rfl
    rw [hredb] at hbq
    rw [hredc] at hcq
    rw [hbq, hcq]
    have hall := all_congr_mem (indicesOf size nhash y)
      (fun index => getBit ((BloomFilter.mk size nhash
        (List.replicate ((size + 7) / 8) 0)).addAll items).1.filter_data index)
      (fun index => decide (0 < ((CountingBloomFilter.mk size nhash
        (List.replicate size 0)).addAll items).1.filter_data.getD index 0))
      (fun index hidx => hlinkf index (indicesOf_lt hs _ _ index hidx))
    rw [hall]
  · intro i hi
    exact hlinkf i hi

theorem C10_witness :
    0 < 3 ∧
    ((CountingBloomFilter.mk 3 2 (List.replicate 3 0)).addAll [[97]]).2 = true ∧
    ((BloomFilter.mk 3 2 (List.replicate ((3 + 7) / 8) 0)).addAll [[97]]).1.query [99]
      = ((CountingBloomFilter.mk 3 2 (List.replicate 3 0)).addAll [[97]]).1.query [99] :=
  ⟨by decide, by decide, (C10_refinement 3 2 [[97]] [99] (by decide) (by decide)).1⟩
